import Mathlib

/-!
# Binary search tree of `bst.c`: heap model

The C program keeps its nodes in `malloc`ed blocks linked by pointers
(`left`, `right`, `parent`) and keeps every key in a block of its own that the
node points to.  The embedding keeps that structure: a heap of node blocks and
a heap of key blocks, addresses are indices, `NULL` is `none`, a freed block
stays in the heap as `none`.  Every access the C code performs through a
pointer is an access here, and one that C leaves undefined is a `Fault`.

Loops and recursions of the C code walk along links; they take a step budget
(`fuel`) here and the entry points give them the number of blocks of the heap,
which is enough on every heap whose links form a tree.
-/

namespace BST

/-- Ways in which an execution leaves defined behaviour. -/
inductive Fault where
  /-- An access through `NULL`. -/
  | null_deref
  /-- An access to (or a `free` of) a block that is freed or was never allocated. -/
  | invalid_pointer
  /-- A write past the end of the output buffer of `tree_as_string`. -/
  | buffer_overflow
  /-- The step budget ran out: the links followed do not end (a cycle). -/
  | out_of_fuel
  /-- A copy between overlapping objects: a `sprintf` whose destination buffer is
  also one of its sources. -/
  | overlapping_copy
deriving DecidableEq, Repr

/-- Modelled from the spec: the declaration of `TreeNode` is in `bst.h`, which is
not among the sources.  The fields are the ones `bst.c` reads and writes:
`key` (address of the key block), `parent`, `left`, `right` (node addresses or
`NULL`). -/
structure TreeNode where
  key : Nat
  parent : Option Nat
  left : Option Nat
  right : Option Nat
deriving DecidableEq, Repr

/-- Modelled from the spec: the declaration of `Tree` is in `bst.h`, which is not
among the sources.  The fields are the ones `create_tree` initialises. -/
structure Tree (K : Type) where
  root : Option Nat
  data_size : Nat
  compare : K → K → Int
  formatter : K → String

/-- The two heaps: node blocks and key blocks.  `none` is a freed block, an
index past the end is an address `malloc` has not handed out yet. -/
structure Heap (K : Type) where
  nodes : List (Option TreeNode)
  keys : List (Option K)

/-- The heap before any allocation. -/
def Heap.empty {K : Type} : Heap K := ⟨[], []⟩

/-- Read of the node a pointer refers to (`p->...`). -/
def Heap.node {K : Type} (h : Heap K) : Option Nat → Except Fault TreeNode
  | none => .error .null_deref
  | some a =>
    match h.nodes[a]? with
    | some (some n) => .ok n
    | _ => .error .invalid_pointer

/-- Read of a key block (what `compare` and `formatter` do with a `key` pointer). -/
def Heap.key_at {K : Type} (h : Heap K) (ka : Nat) : Except Fault K :=
  match h.keys[ka]? with
  | some (some k) => .ok k
  | _ => .error .invalid_pointer

/-- Write to fields of the node a pointer refers to (`p->field = ...`). -/
def Heap.update {K : Type} (h : Heap K) (p : Option Nat) (f : TreeNode → TreeNode) :
    Except Fault (Heap K) :=
  match h.node p with
  | .error e => .error e
  | .ok n =>
    match p with
    | none => .error .null_deref
    | some a => .ok { h with nodes := h.nodes.set a (some (f n)) }

/-- The call `free(node)` on a node block. -/
def Heap.free_node {K : Type} (h : Heap K) (a : Nat) : Except Fault (Heap K) :=
  match h.nodes[a]? with
  | some (some _) => .ok { h with nodes := h.nodes.set a none }
  | _ => .error .invalid_pointer

/-- The call `free(node->key)` on a key block. -/
def Heap.free_key {K : Type} (h : Heap K) (ka : Nat) : Except Fault (Heap K) :=
  match h.keys[ka]? with
  | some (some _) => .ok { h with keys := h.keys.set ka none }
  | _ => .error .invalid_pointer

/-- The constant `STRING_LENGTH` of `bst.c`. -/
def STRING_LENGTH : Nat := 1024

/-- The function `create_tree`: a tree with `root = NULL`. -/
def create_tree {K : Type} (data_size : Nat) (comparator : K → K → Int)
    (formatter : K → String) : Tree K :=
  { root := none, data_size := data_size, compare := comparator, formatter := formatter }

/-- The function `create_tree_node`: a fresh node block whose `key` points to a
fresh key block holding a copy of `data`; `parent`, `left`, `right` are `NULL`.
Returns the address of the node. -/
def create_tree_node {K : Type} (h : Heap K) (data : K) (_data_size : Nat) : Nat × Heap K :=
  (h.nodes.length,
   { nodes := h.nodes ++ [some { key := h.keys.length, parent := none, left := none, right := none }],
     keys := h.keys ++ [some data] })

/-- The statement `sprintf(output, "%s %s", output, key_as_string)`.  The
destination `output` is also the first `%s` source, so the call copies between
overlapping objects, which C leaves undefined whatever the lengths: the call
never yields a defined text.  When the text with its terminating NUL does not
fit the buffer of `STRING_LENGTH` bytes the call writes past the end of the
buffer as well, and that is the fault reported. -/
def sprintf_output (output key_as_string : String) : Except Fault String :=
  if output.utf8ByteSize + 1 + key_as_string.utf8ByteSize < STRING_LENGTH then
    .error .overlapping_copy
  else .error .buffer_overflow

/-- The function `subtree_as_string`: in-order walk; at every node the key is
formatted and `sprintf` is called on `output`. -/
def subtree_as_string {K : Type} (formatter : K → String) (h : Heap K) :
    Nat → Option Nat → String → Except Fault String
  | _, none, output => .ok output
  | 0, some _, _ => .error .out_of_fuel
  | fuel + 1, some a, output => do
    let n ← h.node (some a)
    let output1 ← subtree_as_string formatter h fuel n.left output
    let k ← h.key_at n.key
    let output2 ← sprintf_output output1 (formatter k)
    subtree_as_string formatter h fuel n.right output2

/-- The function `tree_as_string`.  The read `tree->root` is not guarded. -/
def tree_as_string {K : Type} (h : Heap K) (tree : Option (Tree K)) : Except Fault String :=
  match tree with
  | none => .error .null_deref
  | some t => subtree_as_string t.formatter h h.nodes.length t.root "Tree:"

/-- The function `max_depth`. -/
def max_depth {K : Type} (h : Heap K) : Nat → Option Nat → Except Fault Nat
  | _, none => .ok 0
  | 0, some _ => .error .out_of_fuel
  | fuel + 1, some a => do
    let x ← h.node (some a)
    let lDepth ← max_depth h fuel x.left
    let rDepth ← max_depth h fuel x.right
    if lDepth > rDepth then .ok (lDepth + 1) else .ok (rDepth + 1)

/-- The function `tree_depth`.  The read `tree->root` is not guarded. -/
def tree_depth {K : Type} (h : Heap K) (tree : Option (Tree K)) : Except Fault Nat :=
  match tree with
  | none => .error .null_deref
  | some t => max_depth h h.nodes.length t.root

/-- The `while (x != NULL)` loop of `tree_insert`: returns the final `y`. -/
def insert_walk {K : Type} (compare : K → K → Int) (data : K) (h : Heap K) :
    Nat → Option Nat → Option Nat → Except Fault (Option Nat)
  | _, none, y => .ok y
  | 0, some _, _ => .error .out_of_fuel
  | fuel + 1, some x, _ => do
    let xn ← h.node (some x)
    let xk ← h.key_at xn.key
    if compare data xk < 0 then insert_walk compare data h fuel xn.left (some x)
    else insert_walk compare data h fuel xn.right (some x)

/-- The statements of `tree_insert` after the loop: `z->parent = y` and the
link of `z` as the root, as `y->left` or as `y->right`. -/
def insert_link {K : Type} (t : Tree K) (data : K) (h : Heap K) (z : Nat) (y : Option Nat) :
    Except Fault (Tree K × Heap K) := do
  let h1 ← h.update (some z) (fun n => { n with parent := y })
  match y with
  | none => .ok ({ t with root := some z }, h1)
  | some _ => do
    let yn ← h1.node y
    let yk ← h1.key_at yn.key
    if t.compare data yk < 0 then do
      let h2 ← h1.update y (fun n => { n with left := some z })
      .ok (t, h2)
    else do
      let h2 ← h1.update y (fun n => { n with right := some z })
      .ok (t, h2)

/-- The function `tree_insert`.  Returns the `bool` result, the tree record and
the heap afterwards. -/
def tree_insert {K : Type} (h : Heap K) (tree : Option (Tree K)) (data : Option K) :
    Except Fault (Bool × Option (Tree K) × Heap K) :=
  match tree, data with
  | some t, some d => do
    let (z, h1) := create_tree_node h d t.data_size
    let y ← insert_walk t.compare d h1 h1.nodes.length t.root none
    let (t1, h2) ← insert_link t d h1 z y
    .ok (true, some t1, h2)
  | _, _ => .ok (false, tree, h)

/-- The function `recursive_search`.  It is declared to return a node pointer
and returns `false` or `true`, that is the pointer values `NULL` and `1`. -/
def recursive_search {K : Type} (compare : K → K → Int) (h : Heap K) (q : Option K) :
    Nat → Option Nat → Except Fault (Option Nat)
  | _, none => .ok none
  | fuel, some a =>
    match q with
    | none => .ok none
    | some qk =>
      match fuel with
      | 0 => .error .out_of_fuel
      | fuel + 1 => do
        let n ← h.node (some a)
        let k ← h.key_at n.key
        if compare qk k < 0 then recursive_search compare h q fuel n.left
        else if compare qk k > 0 then recursive_search compare h q fuel n.right
        else .ok (some 1)

/-- The function `search`. -/
def search {K : Type} (h : Heap K) (tree : Option (Tree K)) (q : Option K) : Except Fault Bool :=
  match tree, q with
  | some t, some _ => do
    let r ← recursive_search t.compare h q h.nodes.length t.root
    .ok (r != none)
  | _, _ => .ok false

/-- The `while (node->right != NULL)` loop of `tree_maximum`. -/
def maximum_walk {K : Type} (h : Heap K) : Nat → Nat → Except Fault Nat
  | 0, a => do
    let n ← h.node (some a)
    match n.right with
    | none => .ok a
    | some _ => .error .out_of_fuel
  | fuel + 1, a => do
    let n ← h.node (some a)
    match n.right with
    | none => .ok a
    | some r => maximum_walk h fuel r

/-- The function `tree_maximum`. -/
def tree_maximum {K : Type} (h : Heap K) (node : Option Nat) : Except Fault (Option Nat) :=
  match node with
  | none => .ok none
  | some a => do
    let m ← maximum_walk h h.nodes.length a
    .ok (some m)

/-- The function `destroy_subtree`: frees the left subtree, then the key and the
node, then the right subtree (whose address was read before the node was
freed). -/
def destroy_subtree {K : Type} : Nat → Heap K → Option Nat → Except Fault (Heap K)
  | _, h, none => .ok h
  | 0, _, some _ => .error .out_of_fuel
  | fuel + 1, h, some a => do
    let n ← h.node (some a)
    let h1 ← destroy_subtree fuel h n.left
    let n1 ← h1.node (some a)
    let right := n1.right
    let h2 ← h1.free_key n1.key
    let h3 ← h2.free_node a
    destroy_subtree fuel h3 right

/-- The function `destroy_tree`; the tree record itself is freed, so no tree is
left. -/
def destroy_tree {K : Type} (h : Heap K) (tree : Option (Tree K)) : Except Fault (Heap K) :=
  match tree with
  | none => .error .null_deref
  | some t => destroy_subtree h.nodes.length h t.root

/-- The function `transplant`.  The second test is the assignment
`u = u->parent->left`: from there on `u` is the left child of the parent of the
node passed in, and in the last branch `u` is `NULL`.  The last statement is
`destroy_subtree(u)`. -/
def transplant {K : Type} (h : Heap K) (tree : Option (Tree K)) (u v : Option Nat) :
    Except Fault (Option (Tree K) × Heap K) :=
  match tree with
  | none => .ok (none, h)
  | some t => do
    let un ← h.node u
    let (t1, h1, u1) ←
      (match un.parent with
       | none => (.ok ({ t with root := v }, h, u) : Except Fault (Tree K × Heap K × Option Nat))
       | some p => do
         let pn ← h.node (some p)
         let u1 := pn.left
         match u1 with
         | some _ => do
           let u1n ← h.node u1
           let h1 ← h.update u1n.parent (fun n => { n with left := v })
           .ok (t, h1, u1)
         | none => do
           let u1n ← h.node u1
           let h1 ← h.update u1n.parent (fun n => { n with right := v })
           .ok (t, h1, u1))
    let h2 ←
      (match v with
       | none => (.ok h1 : Except Fault (Heap K))
       | some _ => do
         let u1n ← h1.node u1
         h1.update v (fun n => { n with parent := u1n.parent }))
    let h3 ← destroy_subtree h2.nodes.length h2 u1
    .ok (some t1, h3)

/-- The function `tree_delete`.  `tree->root` is read before the `NULL` test,
the key is not looked at, and the node worked on is always the root. -/
def tree_delete {K : Type} (h : Heap K) (tree : Option (Tree K)) (key : Option K) :
    Except Fault (Bool × Option (Tree K) × Heap K) :=
  match tree with
  | none => .error .null_deref
  | some t =>
    let node := t.root
    match key with
    | none => .ok (false, tree, h)
    | some _ => do
      let n ← h.node node
      match n.left with
      | none => do
        let (t1, h1) ← transplant h tree node n.right
        .ok (true, t1, h1)
      | some _ =>
        match n.right with
        | none => do
          let (t1, h1) ← transplant h tree node n.left
          .ok (true, t1, h1)
        | some _ => do
          let prev ← tree_maximum h n.left
          let pn ← h.node prev
          let h1 ← h.update node (fun m => { m with key := pn.key })
          let pn1 ← h1.node prev
          let (t1, h2) ← transplant h1 tree prev pn1.left
          .ok (true, t1, h2)

/-! ## Trees held by a heap -/

/-- The tree a heap region holds: at each node the address of its block and the
key its key block holds. -/
inductive Shape (K : Type) where
  | nil
  | node (l : Shape K) (a : Nat) (k : K) (r : Shape K)

namespace Shape
variable {K : Type}

/-- Addresses of the node blocks, in in-order sequence. -/
def addrs : Shape K → List Nat
  | nil => []
  | node l a _ r => l.addrs ++ a :: r.addrs

/-- Keys in in-order sequence: left subtree, node, right subtree. -/
def keys : Shape K → List K
  | nil => []
  | node l _ k r => l.keys ++ k :: r.keys

/-- Number of nodes on the longest path from the root down. -/
def depth : Shape K → Nat
  | nil => 0
  | node l _ _ r => max l.depth r.depth + 1

/-- The shape with a leaf (block `z`, key `d`) added where the walk of
`tree_insert` ends: left when `d` compares Less than the key, right otherwise. -/
def insert (cmp : K → K → Int) (z : Nat) (d : K) : Shape K → Shape K
  | nil => node nil z d nil
  | node l a k r =>
    if cmp d k < 0 then node (l.insert cmp z d) a k r else node l a k (r.insert cmp z d)

/-- The result of the walk of `recursive_search` read on the shape. -/
def contains (cmp : K → K → Int) (q : K) : Shape K → Bool
  | nil => false
  | node l _ k r =>
    if cmp q k < 0 then l.contains cmp q
    else if cmp q k > 0 then r.contains cmp q
    else true

/-- The BST property: at every node the keys of the left subtree compare Less
than the node's key and the keys of the right subtree compare not-Less. -/
def IsBST (cmp : K → K → Int) : Shape K → Prop
  | nil => True
  | node l _ k r =>
    (∀ x ∈ l.keys, cmp x k < 0) ∧ (∀ x ∈ r.keys, ¬ cmp x k < 0) ∧ l.IsBST cmp ∧ r.IsBST cmp

end Shape

/-- The blocks reachable from pointer `p` form the tree `t`: every node is a live
block at the address the shape gives, its `parent` field is `par` (for the
root of the region) or the node above, its `key` points to a live key block
holding the key of the shape, and `left` and `right` lead to the subtrees
(`NULL` for an empty one). -/
def Repr {K : Type} (h : Heap K) : Option Nat → Option Nat → Shape K → Prop
  | _, none, .nil => True
  | par, some a, .node l b k r =>
    a = b ∧ ∃ n, h.nodes[a]? = some (some n) ∧ n.parent = par ∧
      h.keys[n.key]? = some (some k) ∧ Repr h (some a) n.left l ∧ Repr h (some a) n.right r
  | _, _, _ => False

/-- The heap holds the tree `t` at `root`: the region is linked as `t` with
`root->parent = NULL`, and no block occurs twice. -/
def IsTree {K : Type} (h : Heap K) (root : Option Nat) (t : Shape K) : Prop :=
  Repr h none root t ∧ t.addrs.Nodup

/-- The heap after `z` has been linked below `y`. -/
def linked {K : Type} (h : Heap K) (z kz y : Nat) (yn : TreeNode) (goLeft : Bool) : Heap K :=
  { nodes := (List.set (List.set h.nodes z (some ⟨kz, some y, none, none⟩)) y
      (some (if goLeft then { yn with left := some z } else { yn with right := some z }))),
    keys := h.keys }

/-- A comparator that is a consistent total order (a total preorder read off the
sign of the result): the sign flips with the arguments, and not-greater is
transitive. -/
structure ConsistentCmp {K : Type} (cmp : K → K → Int) : Prop where
  antisymm : ∀ a b, cmp a b < 0 ↔ 0 < cmp b a
  le_trans : ∀ a b c, cmp a b ≤ 0 → cmp b c ≤ 0 → cmp a c ≤ 0

/-- The rendering as the spec describes it: the text `output` followed, for each
key in turn, by one space and the formatted key. -/
def append_keys {K : Type} (formatter : K → String) (output : String) (ks : List K) : String :=
  ks.foldl (fun out k => out ++ " " ++ formatter k) output

/-- The keys inserted one by one with `tree_insert`, as `main` does. -/
def insert_each {K : Type} : List K → Heap K → Option (Tree K) → Except Fault (Option (Tree K) × Heap K)
  | [], h, tree => .ok (tree, h)
  | k :: ks, h, tree => do
    let (_, tree1, h1) ← tree_insert h tree (some k)
    insert_each ks h1 tree1

/-- The shape after a list of keys has been added one by one; the blocks get
consecutive addresses from `z` on. -/
def Shape.insert_list {K : Type} (cmp : K → K → Int) : Nat → List K → Shape K → Shape K
  | _, [], t => t
  | z, k :: ks, t => Shape.insert_list cmp (z + 1) ks (t.insert cmp z k)

/-- Modelled from the spec: `compare_ints` is declared in `tree_tests.h`, which is
not among the sources; it is the integer comparator `main` passes to
`create_tree`, negative, positive or zero as `create_tree` requires. -/
def compare_ints (a b : Int) : Int := if a < b then -1 else if a > b then 1 else 0

/-- Modelled from the spec: `int_formatter` is declared in `tree_tests.h`, which
is not among the sources; it is the formatter `main` passes to `create_tree`,
the decimal text of the integer. -/
def int_formatter (a : Int) : String := toString a

/-- The heap after `main` has inserted 6, 21, -4, 0, 120. -/
def heap5 : Heap Int :=
  { nodes := [some ⟨0, none, some 2, some 1⟩, some ⟨1, some 0, none, some 4⟩,
      some ⟨2, some 0, none, some 3⟩, some ⟨3, some 2, none, none⟩, some ⟨4, some 1, none, none⟩],
    keys := [some 6, some 21, some (-4), some 0, some 120] }

/-- The tree record of `main` once a key is in: the root is block 0. -/
def main_tree : Tree Int := { create_tree 4 compare_ints int_formatter with root := some 0 }

/-- The tree `heap5` holds. -/
def shape5 : Shape Int :=
  .node (.node .nil 2 (-4) (.node .nil 3 0 .nil)) 0 6 (.node .nil 1 21 (.node .nil 4 120 .nil))

/-- The heap after `6` alone was inserted into the empty tree. -/
def heap1 : Heap Int := { nodes := [some ⟨0, none, none, none⟩], keys := [some 6] }

/-- The heap after `6, 21` were inserted: the root has a right child only. -/
def heap2 : Heap Int :=
  { nodes := [some ⟨0, none, none, some 1⟩, some ⟨1, some 0, none, none⟩],
    keys := [some 6, some 21] }

/-- The heap after `6, 2` were inserted: the root has a left child only. -/
def heap2l : Heap Int :=
  { nodes := [some ⟨0, none, some 1, none⟩, some ⟨1, some 0, none, none⟩],
    keys := [some 6, some 2] }

/-- The heap after `6, 2, 8` were inserted: the root has two children. -/
def heap3 : Heap Int :=
  { nodes := [some ⟨0, none, some 1, some 2⟩, some ⟨1, some 0, none, none⟩,
      some ⟨2, some 0, none, none⟩],
    keys := [some 6, some 2, some 8] }

/-- A formatter whose text for every key is 1018 bytes long. -/
def long_formatter (_ : Int) : String := String.mk (List.replicate 1018 'x')

/-- Every left subtree is empty: the shape is a chain of right children. -/
def Shape.IsRightChain {K : Type} : Shape K → Prop
  | .nil => True
  | .node l _ _ r => l = .nil ∧ r.IsRightChain

/-- Median-first recursive-split order, with a step budget: the median of the
list, then the keys below it in the same order, then the keys above it. -/
def median_first_aux {K : Type} : Nat → List K → List K
  | 0, _ => []
  | fuel + 1, l =>
    match l.drop (l.length / 2) with
    | [] => []
    | m :: above =>
      m :: (median_first_aux fuel (l.take (l.length / 2)) ++ median_first_aux fuel above)

/-- Median-first recursive-split order of a list. -/
def median_first {K : Type} (l : List K) : List K := median_first_aux l.length l

/-- The pieces of a text between its spaces. -/
def split_on_spaces : List Char → List (List Char)
  | [] => [[]]
  | c :: cs =>
    if c = ' ' then [] :: split_on_spaces cs
    else
      match split_on_spaces cs with
      | [] => [[c]]
      | w :: ws => (c :: w) :: ws

/-- The rendering parsed back: split on spaces, without the first piece (the
label). -/
def parse_rendering (s : String) : List String :=
  ((split_on_spaces s.data).drop 1).map String.mk

/-- The keys 100, 101, ..., 354: 255 keys of three digits. -/
def keys255 : List Int := (List.range 255).map (fun (i : Nat) => ((100 + i : Nat) : Int))

/-- The text of the pieces, each preceded by one space. -/
def spaced : List (List Char) → List Char
  | [] => []
  | w :: ws => ' ' :: (w ++ spaced ws)

/-- The second shape is the first with one empty place filled by a leaf (block
`z`, key `k`); every other node is at the same place with the same block and
key. -/
inductive LeafAdded {K : Type} (z : Nat) (k : K) : Shape K → Shape K → Prop
  | root : LeafAdded z k .nil (.node .nil z k .nil)
  | left {l l2 r : Shape K} {a : Nat} {x : K} :
      LeafAdded z k l l2 → LeafAdded z k (.node l a x r) (.node l2 a x r)
  | right {l r r2 : Shape K} {a : Nat} {x : K} :
      LeafAdded z k r r2 → LeafAdded z k (.node l a x r) (.node l a x r2)

/-- The heap after `6, 2, 8, 1, 4` were inserted: the left child of the root has
two children. -/
def heap5b : Heap Int :=
  { nodes := [some ⟨0, none, some 1, some 2⟩, some ⟨1, some 0, some 3, some 4⟩,
      some ⟨2, some 0, none, none⟩, some ⟨3, some 1, none, none⟩, some ⟨4, some 1, none, none⟩],
    keys := [some 6, some 2, some 8, some 1, some 4] }

/-! ## Lemmas -/

section lemmas
variable {K : Type}

theorem ok_bind {ε α β : Type} (a : α) (f : α → Except ε β) : (Except.ok a >>= f) = f a := rfl

theorem error_bind {ε α β : Type} (e : ε) (f : α → Except ε β) :
    ((Except.error e : Except ε α) >>= f) = Except.error e := rfl

theorem Repr.none_iff {h : Heap K} {par : Option Nat} {t : Shape K} :
    Repr h par none t ↔ t = .nil := by
  cases t <;> simp [Repr]

theorem Repr.nil_iff {h : Heap K} {par p : Option Nat} :
    Repr h par p (.nil : Shape K) ↔ p = none := by
  cases p <;> simp [Repr]

theorem Heap.node_eq_ok {h : Heap K} {a : Nat} {n : TreeNode}
    (hn : h.nodes[a]? = some (some n)) : h.node (some a) = .ok n := by
  simp [Heap.node, hn]

theorem Heap.key_at_eq_ok {h : Heap K} {ka : Nat} {k : K}
    (hk : h.keys[ka]? = some (some k)) : h.key_at ka = .ok k := by
  simp [Heap.key_at, hk]

theorem Repr.frame {h h2 : Heap K} {t : Shape K} :
    ∀ {par p : Option Nat}, Repr h par p t →
    (∀ a ∈ t.addrs, h2.nodes[a]? = h.nodes[a]?) →
    (∀ (i : Nat) (k : K), h.keys[i]? = some (some k) → h2.keys[i]? = some (some k)) →
    Repr h2 par p t := by
  induction t with
  | nil => intro par p hr _ _; cases p <;> simp_all [Repr]
  | node l a k r ihl ihr =>
    intro par p hr hn hk
    cases p with
    | none => simp [Repr] at hr
    | some b =>
      obtain ⟨rfl, n, h1, h2p, h3, h4, h5⟩ := hr
      refine ⟨rfl, n, ?_, h2p, hk _ _ h3, ?_, ?_⟩
      · rw [hn b (by simp [Shape.addrs])]; exact h1
      · exact ihl h4 (fun a ha => hn a (by simp [Shape.addrs, ha])) hk
      · exact ihr h5 (fun a ha => hn a (by simp [Shape.addrs, ha])) hk

theorem Repr.addr_lt {h : Heap K} {t : Shape K} :
    ∀ {par p : Option Nat}, Repr h par p t → ∀ a ∈ t.addrs, a < h.nodes.length := by
  induction t with
  | nil => intro par p _ a ha; simp [Shape.addrs] at ha
  | node l b k r ihl ihr =>
    intro par p hr a ha
    cases p with
    | none => simp [Repr] at hr
    | some c =>
      obtain ⟨rfl, n, h1, -, -, h4, h5⟩ := hr
      simp only [Shape.addrs, List.mem_append, List.mem_cons] at ha
      rcases ha with ha | rfl | ha
      · exact ihl h4 a ha
      · exact (List.getElem?_eq_some.1 h1).1
      · exact ihr h5 a ha

theorem Shape.depth_le_length (t : Shape K) : t.depth ≤ t.addrs.length := by
  induction t with
  | nil => simp [Shape.depth]
  | node l a k r ihl ihr =>
    simp only [Shape.depth, Shape.addrs, List.length_append, List.length_cons]
    omega

theorem IsTree.depth_le {h : Heap K} {root : Option Nat} {t : Shape K}
    (ht : IsTree h root t) : t.depth ≤ h.nodes.length := by
  have h1 : t.addrs ⊆ List.range h.nodes.length := fun a ha =>
    List.mem_range.2 (Repr.addr_lt ht.1 a ha)
  have h2 := (List.Nodup.subperm ht.2 h1).length_le
  rw [List.length_range] at h2
  exact le_trans t.depth_le_length h2



theorem insert_link_some (t0 : Tree K) (d : K) (h : Heap K) (z kz y : Nat) (yn : TreeNode) (yk : K)
    (hz : h.nodes[z]? = some (some ⟨kz, none, none, none⟩))
    (hy : h.nodes[y]? = some (some yn)) (hyk : h.keys[yn.key]? = some (some yk))
    (hne : y ≠ z) :
    insert_link t0 d h z (some y) =
      .ok (t0, linked h z kz y yn (decide (t0.compare d yk < 0))) := by
  have hzlt : z < h.nodes.length := (List.getElem?_eq_some.1 hz).1
  have hylt : y < h.nodes.length := (List.getElem?_eq_some.1 hy).1
  have hy2 : (h.nodes.set z (some ⟨kz, some y, none, none⟩))[y]? = some (some yn) := by
    rw [List.getElem?_set_ne (Ne.symm hne)]; exact hy
  by_cases hc : t0.compare d yk < 0 <;>
    simp [insert_link, Heap.update, Heap.node, Heap.key_at, hz, hy2, hyk, hc, linked, ok_bind,
      bind, Except.bind]

theorem linked_nodes_other (h : Heap K) (z kz y : Nat) (yn : TreeNode) (g : Bool) (b : Nat)
    (hy : b ≠ y) (hz : b ≠ z) : (linked h z kz y yn g).nodes[b]? = h.nodes[b]? := by
  simp [linked, List.getElem?_set_ne (Ne.symm hy), List.getElem?_set_ne (Ne.symm hz)]

theorem linked_nodes_z (h : Heap K) (z kz y : Nat) (yn : TreeNode) (g : Bool)
    (hz : z < h.nodes.length) (hne : y ≠ z) :
    (linked h z kz y yn g).nodes[z]? = some (some ⟨kz, some y, none, none⟩) := by
  simp [linked, List.getElem?_set_ne hne, hz]

theorem linked_nodes_y (h : Heap K) (z kz y : Nat) (yn : TreeNode) (g : Bool)
    (hy : y < h.nodes.length) :
    (linked h z kz y yn g).nodes[y]? =
      some (some (if g then { yn with left := some z } else { yn with right := some z })) := by
  simp [linked, hy]


theorem Repr.leaf_linked (h : Heap K) (z kz y : Nat) (yn : TreeNode) (g : Bool) (d : K)
    (hz : h.nodes[z]? = some (some ⟨kz, none, none, none⟩))
    (hkz : h.keys[kz]? = some (some d)) (hne : y ≠ z) :
    Repr (linked h z kz y yn g) (some y) (some z) (.node .nil z d .nil) := by
  have hzlt : z < h.nodes.length := (List.getElem?_eq_some.1 hz).1
  refine ⟨rfl, _, linked_nodes_z h z kz y yn g hzlt hne, rfl, ?_, ?_, ?_⟩
  · simpa [linked] using hkz
  · simp [Repr]
  · simp [Repr]

theorem insert_walk_link (t0 : Tree K) (d : K) (h : Heap K) (z kz : Nat)
    (hz : h.nodes[z]? = some (some ⟨kz, none, none, none⟩))
    (hkz : h.keys[kz]? = some (some d)) (t : Shape K) :
    ∀ (par : Option Nat) (a : Nat) (y0 : Option Nat) (fuel : Nat),
      Repr h par (some a) t → t.addrs.Nodup → z ∉ t.addrs → t.depth ≤ fuel →
      ∃ y h2, insert_walk t0.compare d h fuel (some a) y0 = .ok (some y) ∧ y ∈ t.addrs ∧
        insert_link t0 d h z (some y) = .ok (t0, h2) ∧
        Repr h2 par (some a) (t.insert t0.compare z d) ∧
        (∀ b, b ≠ y → b ≠ z → h2.nodes[b]? = h.nodes[b]?) ∧ h2.keys = h.keys ∧
        h2.nodes.length = h.nodes.length := by
  induction t with
  | nil => intro par a y0 fuel hr; simp [Repr] at hr
  | node l b k r ihl ihr =>
    intro par a y0 fuel hr hnd hzn hfuel
    obtain ⟨rfl, n, hn, hpar, hk, hl, hrr⟩ := hr
    simp only [Shape.addrs, List.mem_append, List.mem_cons, not_or] at hzn
    obtain ⟨hzl, hza, hzr⟩ := hzn
    have hndl : l.addrs.Nodup := (List.nodup_append.1 hnd).1
    have hndr : r.addrs.Nodup := (List.nodup_cons.1 (List.nodup_append.1 hnd).2.1).2
    have hal : a ∉ l.addrs := fun hm =>
      (List.nodup_append.1 hnd).2.2 hm (List.mem_cons_self _ _)
    have har : a ∉ r.addrs := (List.nodup_cons.1 (List.nodup_append.1 hnd).2.1).1
    have hdisj : ∀ x, x ∈ l.addrs → x ∉ r.addrs := fun x hx hx2 =>
      (List.nodup_append.1 hnd).2.2 hx (List.mem_cons_of_mem _ hx2)
    have haz : a ≠ z := fun e => hza e.symm
    have halt : a < h.nodes.length := (List.getElem?_eq_some.1 hn).1
    obtain ⟨f, rfl⟩ : ∃ f, fuel = f + 1 := ⟨fuel - 1, by simp [Shape.depth] at hfuel; omega⟩
    have hfl : l.depth ≤ f := by simp [Shape.depth] at hfuel; omega
    have hfr : r.depth ≤ f := by simp [Shape.depth] at hfuel; omega
    by_cases hc : t0.compare d k < 0
    · -- the walk goes left
      cases hnl : n.left with
      | none =>
        rw [hnl] at hl
        have hlnil : l = .nil := Repr.none_iff.1 hl
        subst hlnil
        refine ⟨a, linked h z kz a n true, ?_, by simp [Shape.addrs], ?_, ?_, ?_, rfl,
          by simp [linked]⟩
        · simp [insert_walk, Heap.node_eq_ok hn, Heap.key_at_eq_ok hk, hc, hnl, ok_bind]
        · rw [insert_link_some t0 d h z kz a n k hz hn hk haz]; simp [hc]
        · simp only [Shape.insert, hc, if_true]
          refine ⟨rfl, _, linked_nodes_y h z kz a n true halt, hpar, ?_, ?_, ?_⟩
          · simpa [linked] using hk
          · exact Repr.leaf_linked h z kz a n true d hz hkz haz
          · refine Repr.frame hrr (fun x hx => ?_) (fun i k2 hi => by simpa [linked] using hi)
            exact linked_nodes_other h z kz a n true x (fun e => har (e ▸ hx)) (fun e => hzr (e ▸ hx))
        · intro x hx1 hx2; exact linked_nodes_other h z kz a n true x hx1 hx2
      | some c =>
        rw [hnl] at hl
        obtain ⟨y, h2, hw, hy, hlk, hrep, hfr2, hkeys, hlen⟩ :=
          ihl (some a) c (some a) f hl hndl hzl hfl
        refine ⟨y, h2, ?_, by simp [Shape.addrs, hy], hlk, ?_, hfr2, hkeys, hlen⟩
        · simp [insert_walk, Heap.node_eq_ok hn, Heap.key_at_eq_ok hk, hc, hnl, ok_bind, hw]
        · simp only [Shape.insert, hc, if_true]
          refine ⟨rfl, n, ?_, hpar, by rw [hkeys]; exact hk, by rw [hnl]; exact hrep, ?_⟩
          · rw [hfr2 a (fun e => hal (e ▸ hy)) haz]; exact hn
          · refine Repr.frame hrr (fun x hx => ?_) (fun i k2 hi => by rw [hkeys]; exact hi)
            exact hfr2 x (fun e => hdisj y hy (e ▸ hx)) (fun e => hzr (e ▸ hx))
    · -- the walk goes right
      cases hnr : n.right with
      | none =>
        rw [hnr] at hrr
        have hrnil : r = .nil := Repr.none_iff.1 hrr
        subst hrnil
        refine ⟨a, linked h z kz a n false, ?_, by simp [Shape.addrs], ?_, ?_, ?_, rfl,
          by simp [linked]⟩
        · simp [insert_walk, Heap.node_eq_ok hn, Heap.key_at_eq_ok hk, hc, hnr, ok_bind]
        · rw [insert_link_some t0 d h z kz a n k hz hn hk haz]; simp [hc]
        · simp only [Shape.insert, hc, if_false]
          refine ⟨rfl, _, linked_nodes_y h z kz a n false halt, hpar, ?_, ?_, ?_⟩
          · simpa [linked] using hk
          · refine Repr.frame hl (fun x hx => ?_) (fun i k2 hi => by simpa [linked] using hi)
            exact linked_nodes_other h z kz a n false x (fun e => hal (e ▸ hx)) (fun e => hzl (e ▸ hx))
          · exact Repr.leaf_linked h z kz a n false d hz hkz haz
        · intro x hx1 hx2; exact linked_nodes_other h z kz a n false x hx1 hx2
      | some c =>
        rw [hnr] at hrr
        obtain ⟨y, h2, hw, hy, hlk, hrep, hfr2, hkeys, hlen⟩ :=
          ihr (some a) c (some a) f hrr hndr hzr hfr
        refine ⟨y, h2, ?_, by simp [Shape.addrs, hy], hlk, ?_, hfr2, hkeys, hlen⟩
        · simp [insert_walk, Heap.node_eq_ok hn, Heap.key_at_eq_ok hk, hc, hnr, ok_bind, hw]
        · simp only [Shape.insert, hc, if_false]
          refine ⟨rfl, n, ?_, hpar, by rw [hkeys]; exact hk, ?_, by rw [hnr]; exact hrep⟩
          · rw [hfr2 a (fun e => har (e ▸ hy)) haz]; exact hn
          · refine Repr.frame hl (fun x hx => ?_) (fun i k2 hi => by rw [hkeys]; exact hi)
            exact hfr2 x (fun e => hdisj x hx (e ▸ hy)) (fun e => hzl (e ▸ hx))


theorem Shape.addrs_insert_perm (cmp : K → K → Int) (z : Nat) (d : K) (t : Shape K) :
    List.Perm (t.insert cmp z d).addrs (z :: t.addrs) := by
  induction t with
  | nil => simp [Shape.insert, Shape.addrs]
  | node l a k r ihl ihr =>
    by_cases hc : cmp d k < 0
    · simp only [Shape.insert, hc, if_true, Shape.addrs]
      exact (List.Perm.append_right _ ihl)
    · simp only [Shape.insert, hc, if_false, Shape.addrs]
      refine List.Perm.trans (List.Perm.append_left _ (List.Perm.cons a ihr)) ?_
      refine List.Perm.trans (List.Perm.append_left _ (List.Perm.swap z a _)) ?_
      exact List.perm_middle

theorem Shape.keys_insert_perm (cmp : K → K → Int) (z : Nat) (d : K) (t : Shape K) :
    List.Perm (t.insert cmp z d).keys (d :: t.keys) := by
  induction t with
  | nil => simp [Shape.insert, Shape.keys]
  | node l a k r ihl ihr =>
    by_cases hc : cmp d k < 0
    · simp only [Shape.insert, hc, if_true, Shape.keys]
      exact (List.Perm.append_right _ ihl)
    · simp only [Shape.insert, hc, if_false, Shape.keys]
      refine List.Perm.trans (List.Perm.append_left _ (List.Perm.cons k ihr)) ?_
      refine List.Perm.trans (List.Perm.append_left _ (List.Perm.swap d k _)) ?_
      exact List.perm_middle

/-- What `tree_insert` does on a heap that holds a tree: it succeeds and the heap
then holds the tree with the new leaf at the place the walk ends. -/
theorem tree_insert_spec (h : Heap K) (tree : Tree K) (t : Shape K) (d : K)
    (ht : IsTree h tree.root t) :
    ∃ root2 h2, tree_insert h (some tree) (some d) =
        .ok (true, some { tree with root := root2 }, h2) ∧
      IsTree h2 root2 (t.insert tree.compare h.nodes.length d) ∧
      h2.nodes.length = h.nodes.length + 1 := by
  obtain ⟨hrep, hnd⟩ := ht
  let z := h.nodes.length
  let zn : TreeNode := ⟨h.keys.length, none, none, none⟩
  let h1 : Heap K := ⟨h.nodes ++ [some zn], h.keys ++ [some d]⟩
  have hz : h1.nodes[z]? = some (some zn) := by simp [h1, z]
  have hkz : h1.keys[h.keys.length]? = some (some d) := by simp [h1]
  have hzn : z ∉ t.addrs := fun hm => lt_irrefl _ (Repr.addr_lt hrep z hm)
  have hrep1 : Repr h1 none tree.root t := by
    refine Repr.frame hrep (fun a ha => ?_) (fun i k hi => ?_)
    · exact List.getElem?_append_left (Repr.addr_lt hrep a ha)
    · have hlt : i < h.keys.length := (List.getElem?_eq_some.1 hi).1
      show (h.keys ++ [some d])[i]? = _
      rw [List.getElem?_append_left hlt]; exact hi
  have hdepth : t.depth ≤ h1.nodes.length := by
    have := IsTree.depth_le ⟨hrep, hnd⟩
    simp [h1]; omega
  have hnd2 : (t.insert tree.compare z d).addrs.Nodup :=
    (Shape.addrs_insert_perm tree.compare z d t).nodup_iff.2 (List.nodup_cons.2 ⟨hzn, hnd⟩)
  cases hroot : tree.root with
  | none =>
    rw [hroot] at hrep1
    have htnil : t = .nil := Repr.none_iff.1 hrep1
    subst htnil
    refine ⟨some z, ⟨List.set h1.nodes z (some ⟨h.keys.length, none, none, none⟩), h1.keys⟩,
      ?_, ⟨?_, hnd2⟩, ?_⟩
    · simp [tree_insert, create_tree_node, hroot, insert_walk, insert_link, Heap.update,
        Heap.node, ok_bind, bind, Except.bind, h1, z, zn]
    · refine ⟨rfl, ⟨h.keys.length, none, none, none⟩, ?_, rfl, ?_, ?_, ?_⟩
      · simp [h1, z]
      · simp [h1]
      · simp [Repr]
      · simp [Repr]
    · simp [h1]
  | some a =>
    rw [hroot] at hrep1
    obtain ⟨y, h2, hw, -, hlk, hrep2, hfr, -, hlen⟩ :=
      insert_walk_link tree d h1 z h.keys.length hz hkz t none a none h1.nodes.length
        hrep1 hnd hzn hdepth
    refine ⟨some a, h2, ?_, ⟨hrep2, hnd2⟩, ?_⟩
    · have e : ({ tree with root := some a } : Tree K) = tree := by
        cases tree; simp_all
      rw [e]
      simp only [tree_insert, create_tree_node, hroot]
      show (insert_walk tree.compare d h1 h1.nodes.length (some a) none >>= _) = _
      rw [hw, ok_bind]
      show (insert_link tree d h1 z (some y) >>= _) = _
      rw [hlk, ok_bind]
    · rw [hlen]; simp [h1]



theorem ConsistentCmp.refl {cmp : K → K → Int} (hc : ConsistentCmp cmp) (a : K) : cmp a a = 0 := by
  have h1 := hc.antisymm a a
  omega

theorem ConsistentCmp.eq_symm {cmp : K → K → Int} (hc : ConsistentCmp cmp) {a b : K}
    (hab : cmp a b = 0) : cmp b a = 0 := by
  have h1 := hc.antisymm a b
  have h2 := hc.antisymm b a
  omega

theorem ConsistentCmp.le_of_not_lt {cmp : K → K → Int} (hc : ConsistentCmp cmp) {a b : K}
    (hab : ¬ cmp a b < 0) : cmp b a ≤ 0 := by
  have h2 := hc.antisymm a b
  omega

theorem recursive_search_spec (cmp : K → K → Int) (h : Heap K) (q : K) (t : Shape K) :
    ∀ (par p : Option Nat) (fuel : Nat), Repr h par p t → t.depth ≤ fuel →
      recursive_search cmp h (some q) fuel p =
        .ok (if t.contains cmp q then some 1 else none) := by
  induction t with
  | nil =>
    intro par p fuel hr _
    rw [Repr.nil_iff.1 hr]
    cases fuel <;> simp [recursive_search, Shape.contains]
  | node l b k r ihl ihr =>
    intro par p fuel hr hfuel
    cases p with
    | none => simp [Repr] at hr
    | some a =>
      obtain ⟨rfl, n, hn, -, hk, hl, hrr⟩ := hr
      obtain ⟨f, rfl⟩ : ∃ f, fuel = f + 1 := ⟨fuel - 1, by simp [Shape.depth] at hfuel; omega⟩
      have hfl : l.depth ≤ f := by simp [Shape.depth] at hfuel; omega
      have hfr : r.depth ≤ f := by simp [Shape.depth] at hfuel; omega
      simp only [recursive_search, Heap.node_eq_ok hn, Heap.key_at_eq_ok hk, ok_bind,
        Shape.contains]
      by_cases h1 : cmp q k < 0
      · simp only [h1, if_true]; exact ihl _ _ _ hl hfl
      · by_cases h2 : cmp q k > 0
        · simp only [h1, h2, if_true, if_false]; exact ihr _ _ _ hrr hfr
        · simp [h1, h2]

/-- What `search` returns on a heap that holds a tree. -/
theorem search_spec (h : Heap K) (tree : Tree K) (t : Shape K) (q : K)
    (ht : IsTree h tree.root t) :
    search h (some tree) (some q) = .ok (t.contains tree.compare q) := by
  have hs := recursive_search_spec tree.compare h q t none tree.root h.nodes.length ht.1
    (IsTree.depth_le ht)
  simp only [search, hs, ok_bind]
  cases t.contains tree.compare q <;> simp

theorem Shape.contains_insert (cmp : K → K → Int) (z : Nat) (d : K) (hrefl : cmp d d = 0)
    (t : Shape K) : (t.insert cmp z d).contains cmp d = true := by
  induction t with
  | nil => simp [Shape.insert, Shape.contains, hrefl]
  | node l a k r ihl ihr =>
    by_cases h1 : cmp d k < 0
    · simp [Shape.insert, Shape.contains, h1, ihl]
    · by_cases h2 : cmp d k > 0
      · simp [Shape.insert, Shape.contains, h1, h2, ihr]
      · simp [Shape.insert, Shape.contains, h1, h2]

theorem isBST_insert {cmp : K → K → Int} (z : Nat) (d : K) {t : Shape K}
    (hb : t.IsBST cmp) : (t.insert cmp z d).IsBST cmp := by
  induction t with
  | nil => simp [Shape.insert, Shape.IsBST, Shape.keys]
  | node l a k r ihl ihr =>
    obtain ⟨h1, h2, h3, h4⟩ := hb
    by_cases hc : cmp d k < 0
    · simp only [Shape.insert, hc, if_true, Shape.IsBST]
      refine ⟨fun x hx => ?_, h2, ihl h3, h4⟩
      rcases List.mem_cons.1 ((Shape.keys_insert_perm cmp z d l).mem_iff.1 hx) with rfl | hx
      · exact hc
      · exact h1 x hx
    · simp only [Shape.insert, hc, if_false, Shape.IsBST]
      refine ⟨h1, fun x hx => ?_, h3, ihr h4⟩
      rcases List.mem_cons.1 ((Shape.keys_insert_perm cmp z d r).mem_iff.1 hx) with rfl | hx
      · exact hc
      · exact h2 x hx

theorem Shape.contains_iff {cmp : K → K → Int} (hc : ConsistentCmp cmp) (q : K) {t : Shape K}
    (hb : t.IsBST cmp) : t.contains cmp q = true ↔ ∃ k ∈ t.keys, cmp q k = 0 := by
  induction t with
  | nil => simp [Shape.contains, Shape.keys]
  | node l a k r ihl ihr =>
    obtain ⟨h1, h2, h3, h4⟩ := hb
    simp only [Shape.keys, List.mem_append, List.mem_cons]
    by_cases c1 : cmp q k < 0
    · simp only [Shape.contains, c1, if_true, ihl h3]
      constructor
      · rintro ⟨x, hx, hq⟩; exact ⟨x, Or.inl hx, hq⟩
      · rintro ⟨x, hx | rfl | hx, hq⟩
        · exact ⟨x, hx, hq⟩
        · omega
        · exfalso
          have e1 : cmp k x ≤ 0 := hc.le_of_not_lt (h2 x hx)
          have e2 : cmp x q ≤ 0 := le_of_eq (hc.eq_symm hq)
          have e3 := hc.le_trans _ _ _ e1 e2
          have e4 := hc.antisymm q k
          omega
    · by_cases c2 : cmp q k > 0
      · simp only [Shape.contains, c1, c2, if_true, if_false, ihr h4]
        constructor
        · rintro ⟨x, hx, hq⟩; exact ⟨x, Or.inr (Or.inr hx), hq⟩
        · rintro ⟨x, hx | rfl | hx, hq⟩
          · exfalso
            have e1 : cmp x k ≤ 0 := le_of_lt (h1 x hx)
            have e3 := hc.le_trans _ _ _ (le_of_eq hq) e1
            omega
          · omega
          · exact ⟨x, hx, hq⟩
      · simp only [Shape.contains, c1, c2, if_false, true_iff]
        exact ⟨k, Or.inr (Or.inl rfl), by omega⟩

theorem isBST_sorted {cmp : K → K → Int} (hc : ConsistentCmp cmp) {t : Shape K}
    (hb : t.IsBST cmp) : List.Pairwise (fun a b => cmp a b ≤ 0) t.keys := by
  induction t with
  | nil => simp [Shape.keys]
  | node l a k r ihl ihr =>
    obtain ⟨h1, h2, h3, h4⟩ := hb
    simp only [Shape.keys]
    rw [List.pairwise_append]
    refine ⟨ihl h3, List.pairwise_cons.2 ⟨fun y hy => hc.le_of_not_lt (h2 y hy), ihr h4⟩, ?_⟩
    intro x hx y hy
    rcases List.mem_cons.1 hy with rfl | hy
    · exact le_of_lt (h1 x hx)
    · exact hc.le_trans _ _ _ (le_of_lt (h1 x hx)) (hc.le_of_not_lt (h2 y hy))

theorem utf8ByteSize_go_append (a b : List Char) :
    String.utf8ByteSize.go (a ++ b) = String.utf8ByteSize.go a + String.utf8ByteSize.go b := by
  induction a with
  | nil => simp [String.utf8ByteSize.go]
  | cons c cs ih => simp [String.utf8ByteSize.go, ih]; omega

theorem utf8ByteSize_append (a b : String) :
    (a ++ b).utf8ByteSize = a.utf8ByteSize + b.utf8ByteSize := by
  cases a; cases b
  simp only [String.utf8ByteSize]
  exact utf8ByteSize_go_append _ _

theorem utf8ByteSize_space : (" " : String).utf8ByteSize = 1 := by decide

theorem append_keys_size_le (fmt : K → String) (ks : List K) :
    ∀ out : String, out.utf8ByteSize ≤ (append_keys fmt out ks).utf8ByteSize := by
  induction ks with
  | nil => intro out; simp [append_keys]
  | cons k ks ih =>
    intro out
    have := ih (out ++ " " ++ fmt k)
    simp only [append_keys, List.foldl_cons] at this ⊢
    simp only [utf8ByteSize_append] at this
    omega

theorem append_keys_append (fmt : K → String) (out : String) (ks1 ks2 : List K) :
    append_keys fmt out (ks1 ++ ks2) = append_keys fmt (append_keys fmt out ks1) ks2 := by
  simp [append_keys, List.foldl_append]

theorem sprintf_output_bind (out s : String) (f : String → Except Fault String) :
    (sprintf_output out s >>= f) = sprintf_output out s := by
  unfold sprintf_output
  split_ifs <;> rfl

theorem subtree_as_string_spec (fmt : K → String) (h : Heap K) (t : Shape K) :
    ∀ (par p : Option Nat) (fuel : Nat) (out : String), Repr h par p t → t.depth ≤ fuel →
      subtree_as_string fmt h fuel p out =
        match t.keys with
        | [] => .ok out
        | k :: _ => sprintf_output out (fmt k) := by
  induction t with
  | nil =>
    intro par p fuel out hr _
    rw [Repr.nil_iff.1 hr]
    cases fuel <;> simp [subtree_as_string, Shape.keys]
  | node l b k r ihl _ =>
    intro par p fuel out hr hfuel
    cases p with
    | none => simp [Repr] at hr
    | some a =>
      obtain ⟨rfl, n, hn, -, hk, hl, -⟩ := hr
      obtain ⟨f, rfl⟩ : ∃ f, fuel = f + 1 := ⟨fuel - 1, by simp [Shape.depth] at hfuel; omega⟩
      have hfl : l.depth ≤ f := by simp [Shape.depth] at hfuel; omega
      simp only [subtree_as_string, Heap.node_eq_ok hn, Heap.key_at_eq_ok hk, ok_bind,
        ihl _ _ _ out hl hfl, Shape.keys]
      cases hlk : l.keys with
      | nil => simp only [List.nil_append, ok_bind, sprintf_output_bind]
      | cons k0 rest => simp only [List.cons_append, sprintf_output_bind]

/-- What `tree_as_string` does on a heap that holds a tree: it returns the label
for the empty tree and otherwise ends in the `sprintf` on the first key. -/
theorem tree_as_string_spec (h : Heap K) (tree : Tree K) (t : Shape K)
    (ht : IsTree h tree.root t) :
    tree_as_string h (some tree) =
      match t.keys with
      | [] => .ok "Tree:"
      | k :: _ => sprintf_output "Tree:" (tree.formatter k) :=
  subtree_as_string_spec tree.formatter h t none tree.root h.nodes.length "Tree:" ht.1
    (IsTree.depth_le ht)

theorem tree_as_string_first (h : Heap K) (tree : Tree K) (t : Shape K)
    (ht : IsTree h tree.root t) (k : K) (rest : List K) (hk : t.keys = k :: rest) :
    tree_as_string h (some tree) = sprintf_output "Tree:" (tree.formatter k) := by
  rw [tree_as_string_spec h tree t ht, hk]

theorem compare_ints_consistent : ConsistentCmp compare_ints := by
  constructor
  · intro a b; unfold compare_ints; split_ifs <;> omega
  · intro a b c; unfold compare_ints; split_ifs <;> omega

theorem isTree_heap5 : IsTree heap5 main_tree.root shape5 := by
  refine ⟨?_, by decide⟩
  simp [Repr, heap5, main_tree, shape5, create_tree]

theorem main_scenario :
    insert_each [6, 21, -4, 0, 120] Heap.empty (some (create_tree 4 compare_ints int_formatter))
      = .ok (some main_tree, heap5) := rfl

theorem insert_each_spec (ks : List K) :
    ∀ (h : Heap K) (tree : Tree K) (t : Shape K), IsTree h tree.root t →
      ∃ root2 h2, insert_each ks h (some tree) = .ok (some { tree with root := root2 }, h2) ∧
        IsTree h2 root2 (Shape.insert_list tree.compare h.nodes.length ks t) ∧
        h2.nodes.length = h.nodes.length + ks.length := by
  induction ks with
  | nil =>
    intro h tree t ht
    exact ⟨tree.root, h, by cases tree; rfl, ht, rfl⟩
  | cons k ks ih =>
    intro h tree t ht
    obtain ⟨r1, h1, e1, ht1, hl1⟩ := tree_insert_spec h tree t k ht
    obtain ⟨r2, h2, e2, ht2, hl2⟩ := ih h1 { tree with root := r1 } _ ht1
    refine ⟨r2, h2, ?_, ?_, ?_⟩
    · simp only [insert_each, e1, ok_bind]; exact e2
    · simp only [Shape.insert_list]; rw [← hl1]; exact ht2
    · rw [hl2, hl1]; simp; omega

theorem Shape.keys_insert_list_perm (cmp : K → K → Int) (ks : List K) :
    ∀ (z : Nat) (t : Shape K), List.Perm (Shape.insert_list cmp z ks t).keys (t.keys ++ ks) := by
  induction ks with
  | nil => intro z t; simp [Shape.insert_list]
  | cons k ks ih =>
    intro z t
    refine (ih (z + 1) (t.insert cmp z k)).trans ?_
    refine ((Shape.keys_insert_perm cmp z k t).append_right ks).trans ?_
    simpa using (@List.perm_middle K k t.keys ks).symm

theorem isBST_insert_list {cmp : K → K → Int} (ks : List K) :
    ∀ (z : Nat) {t : Shape K}, t.IsBST cmp → (Shape.insert_list cmp z ks t).IsBST cmp := by
  induction ks with
  | nil => intro z t hb; exact hb
  | cons k ks ih => intro z t hb; exact ih (z + 1) (isBST_insert z k hb)

theorem isBST_shape5 : shape5.IsBST compare_ints := by
  simp [shape5, Shape.IsBST, Shape.keys, compare_ints]

theorem isTree_heap1 : IsTree heap1 (some 0) (.node .nil 0 6 .nil) := by
  refine ⟨?_, by decide⟩
  simp [Repr, heap1]

theorem utf8ByteSize_replicate_x (n : Nat) :
    (String.mk (List.replicate n 'x')).utf8ByteSize = n := by
  simp only [String.utf8ByteSize]
  induction n with
  | zero => rfl
  | succ n ih => simp only [List.replicate_succ, String.utf8ByteSize.go, ih]; rfl

theorem isTree_empty (cmp : K → K → Int) (data_size : Nat) (fmt : K → String) :
    IsTree (Heap.empty : Heap K) (create_tree data_size cmp fmt).root .nil := by
  refine ⟨?_, by simp [Shape.addrs]⟩
  simp [Repr, create_tree]

theorem not_isTree_of_freed (h : Heap K) (a : Nat) (hfree : h.nodes[a]? = some none)
    (t : Shape K) : ¬ IsTree h (some a) t := by
  intro ht
  cases t with
  | nil => simp [IsTree, Repr] at ht
  | node l b k r =>
    obtain ⟨⟨rfl, n, hn, -⟩, -⟩ := ht
    rw [hfree] at hn
    simp at hn

theorem not_isTree_of_freed_key (h : Heap K) (a : Nat) (n : TreeNode)
    (hn : h.nodes[a]? = some (some n)) (hfree : h.keys[n.key]? = some none)
    (t : Shape K) : ¬ IsTree h (some a) t := by
  intro ht
  cases t with
  | nil => simp [IsTree, Repr] at ht
  | node l b k r =>
    obtain ⟨⟨rfl, n2, hn2, -, hk, -⟩, -⟩ := ht
    rw [hn] at hn2
    simp only [Option.some.injEq] at hn2
    subst hn2
    rw [hfree] at hk
    simp at hk

theorem max_depth_spec (h : Heap K) (t : Shape K) :
    ∀ (par p : Option Nat) (fuel : Nat), Repr h par p t → t.depth ≤ fuel →
      max_depth h fuel p = .ok t.depth := by
  induction t with
  | nil =>
    intro par p fuel hr _
    rw [Repr.nil_iff.1 hr]
    cases fuel <;> simp [max_depth, Shape.depth]
  | node l b k r ihl ihr =>
    intro par p fuel hr hfuel
    cases p with
    | none => simp [Repr] at hr
    | some a =>
      obtain ⟨rfl, n, hn, -, -, hl, hrr⟩ := hr
      obtain ⟨f, rfl⟩ : ∃ f, fuel = f + 1 := ⟨fuel - 1, by simp [Shape.depth] at hfuel; omega⟩
      have hfl : l.depth ≤ f := by simp [Shape.depth] at hfuel; omega
      have hfr : r.depth ≤ f := by simp [Shape.depth] at hfuel; omega
      simp only [max_depth, Heap.node_eq_ok hn, ok_bind, ihl _ _ _ hl hfl, ihr _ _ _ hrr hfr,
        Shape.depth]
      by_cases hc : l.depth > r.depth
      · simp only [hc, if_true]; congr 1; omega
      · simp only [hc, if_false]; congr 1; omega

/-- What `tree_depth` returns on a heap that holds a tree. -/
theorem tree_depth_spec (h : Heap K) (tree : Tree K) (t : Shape K)
    (ht : IsTree h tree.root t) : tree_depth h (some tree) = .ok t.depth :=
  max_depth_spec h t none tree.root h.nodes.length ht.1 (IsTree.depth_le ht)

theorem Repr.length_le {h : Heap K} {t : Shape K} {par p : Option Nat}
    (hr : Repr h par p t) (hnd : t.addrs.Nodup) : t.addrs.length ≤ h.nodes.length := by
  have h1 : t.addrs ⊆ List.range h.nodes.length := fun a ha =>
    List.mem_range.2 (Repr.addr_lt hr a ha)
  have h2 := (List.Nodup.subperm hnd h1).length_le
  rwa [List.length_range] at h2

theorem Shape.insert_right_chain (cmp : K → K → Int) (z : Nat) (k : K) (t : Shape K)
    (hc : t.IsRightChain) (hk : ∀ x ∈ t.keys, ¬ cmp k x < 0) :
    (t.insert cmp z k).IsRightChain ∧ (t.insert cmp z k).depth = t.depth + 1 ∧
      (t.insert cmp z k).keys = t.keys ++ [k] := by
  induction t with
  | nil => simp [Shape.insert, Shape.IsRightChain, Shape.depth, Shape.keys]
  | node l a x r _ ihr =>
    obtain ⟨rfl, hr⟩ := hc
    have hx : ¬ cmp k x < 0 := hk x (by simp [Shape.keys])
    obtain ⟨h1, h2, h3⟩ := ihr hr (fun y hy => hk y (by simp [Shape.keys, hy]))
    simp only [Shape.insert, hx, if_false, Shape.IsRightChain, Shape.depth, Shape.keys, h1, h2, h3]
    simp

theorem Shape.depth_insert_list_chain (cmp : K → K → Int)
    (hanti : ∀ a b, cmp a b < 0 → ¬ cmp b a < 0) (ks : List K) :
    ∀ (z : Nat) (t : Shape K), t.IsRightChain → (∀ x ∈ t.keys, ∀ y ∈ ks, cmp x y < 0) →
      List.Pairwise (fun a b => cmp a b < 0) ks →
      (Shape.insert_list cmp z ks t).depth = t.depth + ks.length := by
  induction ks with
  | nil => intro z t _ _ _; simp [Shape.insert_list]
  | cons k ks ih =>
    intro z t hc hlt hs
    obtain ⟨h1, h2, h3⟩ := Shape.insert_right_chain cmp z k t hc
      (fun x hx => hanti x k (hlt x hx k (List.mem_cons_self _ _)))
    rw [Shape.insert_list, ih (z + 1) _ h1 ?_ (List.pairwise_cons.1 hs).2, h2]
    · simp; omega
    · intro x hx y hy
      rw [h3] at hx
      rcases List.mem_append.1 hx with hx | hx
      · exact hlt x hx y (List.mem_cons_of_mem _ hy)
      · rw [List.mem_singleton.1 hx]; exact (List.pairwise_cons.1 hs).1 y hy

theorem tree_insert_true_of_ok (h : Heap K) (tree : Tree K) (d : K)
    (r : Bool × Option (Tree K) × Heap K)
    (hr : tree_insert h (some tree) (some d) = .ok r) : r.1 = true := by
  simp only [tree_insert] at hr
  cases hw : insert_walk tree.compare d (create_tree_node h d tree.data_size).2
      (create_tree_node h d tree.data_size).2.nodes.length tree.root none with
  | error e => simp [hw, bind, Except.bind] at hr
  | ok y =>
    cases hl : insert_link tree d (create_tree_node h d tree.data_size).2
        (create_tree_node h d tree.data_size).1 y with
    | error e => simp [hw, hl, bind, Except.bind] at hr
    | ok p =>
      simp [hw, hl, bind, Except.bind] at hr
      rw [← hr]

theorem Shape.insert_list_append (cmp : K → K → Int) (xs ys : List K) :
    ∀ (z : Nat) (t : Shape K), Shape.insert_list cmp z (xs ++ ys) t =
      Shape.insert_list cmp (z + xs.length) ys (Shape.insert_list cmp z xs t) := by
  induction xs with
  | nil => intro z t; simp [Shape.insert_list]
  | cons x xs ih =>
    intro z t
    have e := ih (z + 1) (Shape.insert cmp z x t)
    rw [show z + 1 + xs.length = z + (xs.length + 1) by omega] at e
    simpa only [List.cons_append, Shape.insert_list, List.length_cons] using e

theorem Shape.insert_list_left (cmp : K → K → Int) (a : Nat) (k : K) (xs : List K) :
    ∀ (z : Nat) (l r : Shape K), (∀ x ∈ xs, cmp x k < 0) →
      Shape.insert_list cmp z xs (.node l a k r) = .node (Shape.insert_list cmp z xs l) a k r := by
  induction xs with
  | nil => intro z l r _; simp [Shape.insert_list]
  | cons x xs ih =>
    intro z l r hx
    have h1 : cmp x k < 0 := hx x (List.mem_cons_self _ _)
    simp only [Shape.insert_list, Shape.insert, h1, if_true]
    exact ih _ _ _ (fun y hy => hx y (List.mem_cons_of_mem _ hy))

theorem Shape.insert_list_right (cmp : K → K → Int) (a : Nat) (k : K) (xs : List K) :
    ∀ (z : Nat) (l r : Shape K), (∀ x ∈ xs, ¬ cmp x k < 0) →
      Shape.insert_list cmp z xs (.node l a k r) = .node l a k (Shape.insert_list cmp z xs r) := by
  induction xs with
  | nil => intro z l r _; simp [Shape.insert_list]
  | cons x xs ih =>
    intro z l r hx
    have h1 : ¬ cmp x k < 0 := hx x (List.mem_cons_self _ _)
    simp only [Shape.insert_list, Shape.insert, h1, if_false]
    exact ih _ _ _ (fun y hy => hx y (List.mem_cons_of_mem _ hy))

theorem mem_median_first_aux (fuel : Nat) :
    ∀ (l : List K) (x : K), x ∈ median_first_aux fuel l → x ∈ l := by
  induction fuel with
  | zero => intro l x hx; simp [median_first_aux] at hx
  | succ f ih =>
    intro l x hx
    simp only [median_first_aux] at hx
    cases hd : l.drop (l.length / 2) with
    | nil => simp [hd] at hx
    | cons m above =>
      simp only [hd, List.mem_cons, List.mem_append] at hx
      have hsplit : l = l.take (l.length / 2) ++ m :: above := by
        rw [← hd]; exact (List.take_append_drop _ _).symm
      rw [hsplit]
      rcases hx with rfl | hx | hx
      · simp
      · exact List.mem_append_left _ (ih _ _ hx)
      · exact List.mem_append_right _ (List.mem_cons_of_mem _ (ih _ _ hx))

theorem clog_succ_eq (n : Nat) (hn : 1 ≤ n) : Nat.clog 2 (n + 1) = Nat.clog 2 (n / 2 + 1) + 1 := by
  rw [Nat.clog_of_two_le (by norm_num) (by omega)]
  congr 2
  omega

theorem Shape.depth_median_first (cmp : K → K → Int)
    (hanti : ∀ a b, cmp a b < 0 → ¬ cmp b a < 0) (fuel : Nat) :
    ∀ (l : List K) (z : Nat), l.length ≤ fuel → List.Pairwise (fun a b => cmp a b < 0) l →
      (Shape.insert_list cmp z (median_first_aux fuel l) .nil).depth =
        Nat.clog 2 (l.length + 1) := by
  induction fuel with
  | zero =>
    intro l z hl _
    have : l = [] := List.length_eq_zero.1 (by omega)
    subst this
    simp [median_first_aux, Shape.insert_list, Shape.depth]
  | succ f ih =>
    intro l z hl hs
    simp only [median_first_aux]
    cases hd : l.drop (l.length / 2) with
    | nil =>
      have hlen := congrArg List.length hd
      simp only [List.length_drop, List.length_nil] at hlen
      have : l = [] := List.length_eq_zero.1 (by omega)
      subst this
      simp [Shape.insert_list, Shape.depth]
    | cons m above =>
      have hsplit : l = l.take (l.length / 2) ++ m :: above := by
        rw [← hd]; exact (List.take_append_drop _ _).symm
      have hlen := congrArg List.length hd
      simp only [List.length_drop, List.length_cons] at hlen
      have hpos : 1 ≤ l.length := by omega
      have htl : (l.take (l.length / 2)).length = l.length / 2 := by
        rw [List.length_take]; omega
      have hs2 := hs
      rw [hsplit, List.pairwise_append] at hs2
      obtain ⟨hs_low, hs_ma, hcross⟩ := hs2
      have hs_above := (List.pairwise_cons.1 hs_ma).2
      have hlow : ∀ x ∈ median_first_aux f (l.take (l.length / 2)), cmp x m < 0 :=
        fun x hx => hcross x (mem_median_first_aux f _ x hx) m (List.mem_cons_self _ _)
      have habove : ∀ x ∈ median_first_aux f above, ¬ cmp x m < 0 :=
        fun x hx => hanti m x ((List.pairwise_cons.1 hs_ma).1 x (mem_median_first_aux f _ x hx))
      have e : Shape.insert_list cmp z
          (m :: (median_first_aux f (l.take (l.length / 2)) ++ median_first_aux f above)) .nil =
          .node (Shape.insert_list cmp (z + 1) (median_first_aux f (l.take (l.length / 2))) .nil)
            z m (Shape.insert_list cmp
              (z + 1 + (median_first_aux f (l.take (l.length / 2))).length)
              (median_first_aux f above) .nil) := by
        simp only [Shape.insert_list, Shape.insert]
        rw [Shape.insert_list_append, Shape.insert_list_left cmp z m _ _ _ _ hlow,
          Shape.insert_list_right cmp z m _ _ _ _ habove]
      rw [e, Shape.depth, ih _ _ (by rw [htl]; omega) hs_low, ih _ _ (by omega) hs_above, htl,
        clog_succ_eq l.length hpos]
      congr 1
      apply max_eq_left
      apply Nat.clog_mono_right
      omega

theorem append_keys_size (fmt : K → String) (ks : List K) :
    ∀ out : String, (append_keys fmt out ks).utf8ByteSize =
      out.utf8ByteSize + (ks.map (fun k => 1 + (fmt k).utf8ByteSize)).sum := by
  induction ks with
  | nil => intro out; simp [append_keys]
  | cons k ks ih =>
    intro out
    have := ih (out ++ " " ++ fmt k)
    simp only [append_keys, List.foldl_cons] at this ⊢
    rw [this]
    simp only [utf8ByteSize_append, utf8ByteSize_space, List.map_cons, List.sum_cons]
    omega

set_option maxRecDepth 100000 in
theorem keys255_size : ∀ k ∈ keys255, 1 + (int_formatter k).utf8ByteSize = 4 := by
  decide

theorem split_on_spaces_ne_nil (cs : List Char) : split_on_spaces cs ≠ [] := by
  induction cs with
  | nil => simp [split_on_spaces]
  | cons c cs ih =>
    simp only [split_on_spaces]
    split_ifs
    · simp
    · cases h : split_on_spaces cs <;> simp

theorem split_on_spaces_word (w : List Char) (hw : ' ' ∉ w) : split_on_spaces w = [w] := by
  induction w with
  | nil => simp [split_on_spaces]
  | cons c cs ih =>
    have hc : c ≠ ' ' := fun e => hw (by simp [e])
    have hcs : ' ' ∉ cs := fun e => hw (List.mem_cons_of_mem _ e)
    simp [split_on_spaces, hc, ih hcs]

theorem split_on_spaces_append (w rest : List Char) (hw : ' ' ∉ w) :
    split_on_spaces (w ++ ' ' :: rest) = w :: split_on_spaces rest := by
  induction w with
  | nil => simp [split_on_spaces]
  | cons c cs ih =>
    have hc : c ≠ ' ' := fun e => hw (by simp [e])
    have hcs : ' ' ∉ cs := fun e => hw (List.mem_cons_of_mem _ e)
    simp [split_on_spaces, hc, ih hcs]

theorem split_on_spaces_spaced (ws : List (List Char)) (hws : ∀ w ∈ ws, ' ' ∉ w) :
    ∀ (l : List Char), ' ' ∉ l → split_on_spaces (l ++ spaced ws) = l :: ws := by
  induction ws with
  | nil => intro l hl; simpa [spaced] using split_on_spaces_word l hl
  | cons w ws ih =>
    intro l hl
    simp only [spaced]
    rw [split_on_spaces_append l _ hl,
      ih (fun x hx => hws x (List.mem_cons_of_mem _ hx)) w (hws w (List.mem_cons_self _ _))]

theorem append_keys_data (fmt : K → String) (ks : List K) :
    ∀ out : String, (append_keys fmt out ks).data =
      out.data ++ spaced (ks.map (fun k => (fmt k).data)) := by
  induction ks with
  | nil => intro out; simp [append_keys, spaced]
  | cons k ks ih =>
    intro out
    have := ih (out ++ " " ++ fmt k)
    simp only [append_keys, List.foldl_cons] at this ⊢
    rw [this]
    simp [spaced, String.data_append]

theorem parse_rendering_append_keys (fmt : K → String) (ks : List K)
    (hsp : ∀ k ∈ ks, ' ' ∉ (fmt k).data) :
    parse_rendering (append_keys fmt "Tree:" ks) = ks.map fmt := by
  simp only [parse_rendering, append_keys_data]
  rw [split_on_spaces_spaced _ (by simpa using hsp) _ (by decide)]
  simp [List.map_map, Function.comp_def]

theorem Shape.insert_leafAdded (cmp : K → K → Int) (z : Nat) (k : K) (t : Shape K) :
    LeafAdded z k t (t.insert cmp z k) := by
  induction t with
  | nil => exact LeafAdded.root
  | node l a x r ihl ihr =>
    by_cases hc : cmp k x < 0
    · simp only [Shape.insert, hc, if_true]; exact LeafAdded.left ihl
    · simp only [Shape.insert, hc, if_false]; exact LeafAdded.right ihr

theorem LeafAdded.depth_bounds {z : Nat} {k : K} {t t2 : Shape K} (hl : LeafAdded z k t t2) :
    t.depth ≤ t2.depth ∧ t2.depth ≤ t.depth + 1 := by
  induction hl with
  | root => simp [Shape.depth]
  | left _ ih => simp only [Shape.depth]; omega
  | right _ ih => simp only [Shape.depth]; omega

theorem LeafAdded.addrs_length {z : Nat} {k : K} {t t2 : Shape K} (hl : LeafAdded z k t t2) :
    t2.addrs.length = t.addrs.length + 1 := by
  induction hl with
  | root => simp [Shape.addrs]
  | left _ ih => simp only [Shape.addrs, List.length_append, List.length_cons, ih]; omega
  | right _ ih => simp only [Shape.addrs, List.length_append, List.length_cons, ih]; omega

theorem maximum_walk_spec (h : Heap K) (t : Shape K) :
    ∀ (par : Option Nat) (a fuel : Nat), Repr h par (some a) t → t.depth ≤ fuel + 1 →
      ∃ m n km, maximum_walk h fuel a = .ok m ∧ m ∈ t.addrs ∧
        h.nodes[m]? = some (some n) ∧ n.right = none ∧
        h.keys[n.key]? = some (some km) ∧ t.keys.getLast? = some km := by
  induction t with
  | nil => intro par a fuel hr; simp [Repr] at hr
  | node l b k r _ ihr =>
    intro par a fuel hr hfuel
    obtain ⟨rfl, n, hn, -, hk, -, hrr⟩ := hr
    cases hnr : n.right with
    | none =>
      rw [hnr] at hrr
      have : r = .nil := Repr.none_iff.1 hrr
      subst this
      refine ⟨a, n, k, ?_, by simp [Shape.addrs], hn, hnr, hk, by simp [Shape.keys]⟩
      cases fuel <;> simp [maximum_walk, Heap.node_eq_ok hn, hnr, ok_bind]
    | some c =>
      rw [hnr] at hrr
      have hrne : r ≠ .nil := fun e => by rw [e] at hrr; simp [Repr] at hrr
      have hrd : 1 ≤ r.depth := by
        cases r with
        | nil => exact absurd rfl hrne
        | node _ _ _ _ => simp [Shape.depth]
      obtain ⟨f, rfl⟩ : ∃ f, fuel = f + 1 := ⟨fuel - 1, by simp [Shape.depth] at hfuel; omega⟩
      have hfr : r.depth ≤ f + 1 := by simp [Shape.depth] at hfuel; omega
      obtain ⟨m, n2, km, hw, hm, hn2, hr2, hk2, hlast⟩ := ihr (some a) c f hrr hfr
      refine ⟨m, n2, km, ?_, by simp [Shape.addrs, hm], hn2, hr2, hk2, ?_⟩
      · simp [maximum_walk, Heap.node_eq_ok hn, hnr, ok_bind, hw]
      · have hne : r.keys ≠ [] := by
          intro e; rw [e] at hlast; simp at hlast
        simp only [Shape.keys]
        rw [List.getLast?_append_of_ne_nil _ (List.cons_ne_nil _ _)]
        obtain ⟨x, xs, e⟩ := List.exists_cons_of_ne_nil hne
        rw [e] at hlast ⊢
        rw [List.getLast?_cons_cons]
        exact hlast

theorem sum_map_const (f : K → Nat) (c : Nat) (ks : List K) (hf : ∀ k ∈ ks, f k = c) :
    (ks.map f).sum = c * ks.length := by
  induction ks with
  | nil => simp
  | cons k ks ih =>
    rw [List.map_cons, List.sum_cons, hf k (List.mem_cons_self _ _),
      ih (fun x hx => hf x (List.mem_cons_of_mem _ hx)), List.length_cons]
    ring

theorem le_last_of_sorted {cmp : K → K → Int} (hc : ConsistentCmp cmp) (ks : List K) (km : K)
    (hs : List.Pairwise (fun a b => cmp a b ≤ 0) ks) (hl : ks.getLast? = some km) :
    ∀ x ∈ ks, cmp x km ≤ 0 := by
  obtain ⟨init, rfl⟩ : ∃ init, ks = init ++ [km] := by
    rcases List.eq_nil_or_concat ks with rfl | ⟨init, b, rfl⟩
    · simp at hl
    · refine ⟨init, ?_⟩
      simp only [List.concat_eq_append, List.getLast?_append_of_ne_nil _ (List.cons_ne_nil _ _),
        List.getLast?_singleton, Option.some.injEq] at hl ⊢
      rw [hl]
  intro x hx
  rcases List.mem_append.1 hx with hx | hx
  · exact (List.pairwise_append.1 hs).2.2 x hx km (List.mem_singleton_self _)
  · rw [List.mem_singleton.1 hx]; exact le_of_eq (hc.refl km)

/-- The frame of `tree_insert` on a heap that holds a tree: one node block and
one key block are appended, the key blocks there were are untouched, and so is
every node block outside the tree. -/
theorem tree_insert_frame (h : Heap K) (tree : Tree K) (t : Shape K) (d : K)
    (ht : IsTree h tree.root t) :
    ∃ root2 h2, tree_insert h (some tree) (some d) =
        .ok (true, some { tree with root := root2 }, h2) ∧
      IsTree h2 root2 (t.insert tree.compare h.nodes.length d) ∧
      h2.nodes.length = h.nodes.length + 1 ∧ h2.keys = h.keys ++ [some d] ∧
      (∀ b, b ∉ t.addrs → b < h.nodes.length → h2.nodes[b]? = h.nodes[b]?) := by
  obtain ⟨hrep, hnd⟩ := ht
  let z := h.nodes.length
  let zn : TreeNode := ⟨h.keys.length, none, none, none⟩
  let h1 : Heap K := ⟨h.nodes ++ [some zn], h.keys ++ [some d]⟩
  have hz : h1.nodes[z]? = some (some zn) := by simp [h1, z]
  have hkz : h1.keys[h.keys.length]? = some (some d) := by simp [h1]
  have hzn : z ∉ t.addrs := fun hm => lt_irrefl _ (Repr.addr_lt hrep z hm)
  have hrep1 : Repr h1 none tree.root t := by
    refine Repr.frame hrep (fun a ha => ?_) (fun i k hi => ?_)
    · exact List.getElem?_append_left (Repr.addr_lt hrep a ha)
    · have hlt : i < h.keys.length := (List.getElem?_eq_some.1 hi).1
      show (h.keys ++ [some d])[i]? = _
      rw [List.getElem?_append_left hlt]; exact hi
  have hdepth : t.depth ≤ h1.nodes.length := by
    have := IsTree.depth_le ⟨hrep, hnd⟩
    simp [h1]; omega
  have hnd2 : (t.insert tree.compare z d).addrs.Nodup :=
    (Shape.addrs_insert_perm tree.compare z d t).nodup_iff.2 (List.nodup_cons.2 ⟨hzn, hnd⟩)
  cases hroot : tree.root with
  | none =>
    rw [hroot] at hrep1
    have htnil : t = .nil := Repr.none_iff.1 hrep1
    subst htnil
    refine ⟨some z, ⟨List.set h1.nodes z (some ⟨h.keys.length, none, none, none⟩), h1.keys⟩,
      ?_, ⟨?_, hnd2⟩, ?_, rfl, ?_⟩
    · simp [tree_insert, create_tree_node, hroot, insert_walk, insert_link, Heap.update,
        Heap.node, ok_bind, bind, Except.bind, h1, z, zn]
    · refine ⟨rfl, ⟨h.keys.length, none, none, none⟩, ?_, rfl, ?_, ?_, ?_⟩
      · simp [h1, z]
      · simp [h1]
      · simp [Repr]
      · simp [Repr]
    · simp [h1]
    · intro b _ hb
      have hbz : z ≠ b := fun e => by simp only [z] at e; omega
      show (List.set (h.nodes ++ [some zn]) z _)[b]? = _
      rw [List.getElem?_set_ne hbz, List.getElem?_append_left hb]
  | some a =>
    rw [hroot] at hrep1
    obtain ⟨y, h2, hw, hy, hlk, hrep2, hfr, hkeys, hlen⟩ :=
      insert_walk_link tree d h1 z h.keys.length hz hkz t none a none h1.nodes.length
        hrep1 hnd hzn hdepth
    refine ⟨some a, h2, ?_, ⟨hrep2, hnd2⟩, ?_, hkeys, ?_⟩
    · have e : ({ tree with root := some a } : Tree K) = tree := by
        cases tree; simp_all
      rw [e]
      simp only [tree_insert, create_tree_node, hroot]
      show (insert_walk tree.compare d h1 h1.nodes.length (some a) none >>= _) = _
      rw [hw, ok_bind]
      show (insert_link tree d h1 z (some y) >>= _) = _
      rw [hlk, ok_bind]
    · rw [hlen]; simp [h1]
    · intro b hb hblt
      rw [hfr b (fun e => hb (e ▸ hy)) (fun e => by simp only [z] at e; omega)]
      exact List.getElem?_append_left hblt

theorem ConsistentCmp.lt_trans {cmp : K → K → Int} (hc : ConsistentCmp cmp) {a b c : K}
    (hab : cmp a b < 0) (hbc : cmp b c < 0) : cmp a c < 0 := by
  by_contra hac
  have h1 : cmp c a ≤ 0 := hc.le_of_not_lt hac
  have h2 := hc.le_trans c a b h1 (le_of_lt hab)
  have h3 := hc.antisymm b c
  omega

theorem pairwise_of_chain {cmp : K → K → Int} (hc : ConsistentCmp cmp) {ks : List K}
    (hs : List.Chain' (fun a b => cmp a b < 0) ks) :
    List.Pairwise (fun a b => cmp a b < 0) ks := by
  haveI : IsTrans K (fun a b => cmp a b < 0) := ⟨fun _ _ _ h1 h2 => hc.lt_trans h1 h2⟩
  exact List.chain'_iff_pairwise.1 hs

/-- The tree built by inserting a list of keys one by one into the empty tree:
the inserts succeed and the in-order key sequence of the tree is a permutation
of the inserted keys and is non-decreasing. -/
theorem insert_each_inorder (data_size : Nat) (cmp : K → K → Int)
    (fmt : K → String) (ks : List K) (hc : ConsistentCmp cmp) :
    ∃ root h t,
      insert_each ks Heap.empty (some (create_tree data_size cmp fmt)) =
        .ok (some { create_tree data_size cmp fmt with root := root }, h) ∧
      IsTree h root t ∧ List.Perm t.keys ks ∧
      List.Pairwise (fun a b => cmp a b ≤ 0) t.keys := by
  obtain ⟨root, h, e, ht, -⟩ := insert_each_spec ks Heap.empty
    (create_tree data_size cmp fmt) .nil (isTree_empty cmp data_size fmt)
  have hb : (Shape.insert_list cmp (Heap.empty : Heap K).nodes.length ks .nil).IsBST cmp :=
    isBST_insert_list ks _ (by simp [Shape.IsBST])
  refine ⟨root, h, _, e, ht, ?_, isBST_sorted hc hb⟩
  simpa [Shape.keys] using Shape.keys_insert_list_perm cmp ks
    (Heap.empty : Heap K).nodes.length .nil

end lemmas

/-! ## The claims -/

/-- Claim C1 (insert-then-search): on every heap that holds a tree (empty or
not), with a comparator that is a consistent total order, `tree_insert` of a
present key returns `true` and `search` for that key in the tree it leaves
returns `true`.  Of the comparator only `compare k k = 0` is used; the tree need
not be ordered. -/
theorem insert_then_search {K : Type} (h : Heap K) (tree : Tree K) (t : Shape K) (k : K)
    (ht : IsTree h tree.root t) (hc : ConsistentCmp tree.compare) :
    ∃ tree2 h2, tree_insert h (some tree) (some k) = .ok (true, some tree2, h2) ∧
      search h2 (some tree2) (some k) = .ok true := by
  obtain ⟨root2, h2, e, ht2, -⟩ := tree_insert_spec h tree t k ht
  refine ⟨_, h2, e, ?_⟩
  rw [search_spec h2 { tree with root := root2 } _ k ht2]
  exact congrArg Except.ok (Shape.contains_insert tree.compare _ k (hc.refl k) t)

/-- Instance of C1: inserting 7 into the five-key tree of `main`. -/
theorem insert_then_search_witness :
    IsTree heap5 main_tree.root shape5 ∧ ConsistentCmp main_tree.compare ∧
    ∃ tree2 h2, tree_insert heap5 (some main_tree) (some 7) = .ok (true, some tree2, h2) ∧
      search h2 (some tree2) (some 7) = .ok true :=
  ⟨isTree_heap5, compare_ints_consistent,
    insert_then_search heap5 main_tree shape5 7 isTree_heap5 compare_ints_consistent⟩

/-- Claim C2 (insert keeps the BST property, ties going right): if the heap
holds a tree in which, at every node, the keys of the left subtree compare Less
than the node's key and the keys of the right subtree compare not-Less, then
`tree_insert` of any key `k` (a key equal to a stored one included) returns
`true` and leaves a tree with the same property; and the tree built from the
empty tree by inserting any list of keys one by one has the property. -/
theorem tree_insert_preserves_bst {K : Type} (h : Heap K) (tree : Tree K) (t : Shape K) (k : K)
    (ks : List K) (ht : IsTree h tree.root t) (hb : t.IsBST tree.compare) :
    (∃ root2 h2 t2, tree_insert h (some tree) (some k) =
        .ok (true, some { tree with root := root2 }, h2) ∧
      IsTree h2 root2 t2 ∧ t2.IsBST tree.compare) ∧
    (∃ root3 h3 t3,
      insert_each ks Heap.empty (some (create_tree tree.data_size tree.compare tree.formatter)) =
        .ok (some { create_tree tree.data_size tree.compare tree.formatter with root := root3 },
          h3) ∧
      IsTree h3 root3 t3 ∧ t3.IsBST tree.compare) := by
  constructor
  · obtain ⟨root2, h2, e, ht2, -⟩ := tree_insert_spec h tree t k ht
    exact ⟨root2, h2, _, e, ht2, isBST_insert _ k hb⟩
  · obtain ⟨root3, h3, e, ht3, -⟩ := insert_each_spec ks Heap.empty
      (create_tree tree.data_size tree.compare tree.formatter) .nil
      (isTree_empty tree.compare tree.data_size tree.formatter)
    refine ⟨root3, h3, _, e, ht3, ?_⟩
    exact isBST_insert_list ks _ (by simp [Shape.IsBST])

/-- Instance of C2: inserting a second 6 into the five-key tree of `main`, and
building the tree of `main` from the empty tree. -/
theorem tree_insert_preserves_bst_witness :
    IsTree heap5 main_tree.root shape5 ∧ shape5.IsBST main_tree.compare ∧
    (∃ root2 h2 t2, tree_insert heap5 (some main_tree) (some 6) =
        .ok (true, some { main_tree with root := root2 }, h2) ∧
      IsTree h2 root2 t2 ∧ t2.IsBST main_tree.compare) ∧
    (∃ root3 h3 t3,
      insert_each [6, 21, -4, 0, 120] Heap.empty
          (some (create_tree main_tree.data_size main_tree.compare main_tree.formatter)) =
        .ok (some { create_tree main_tree.data_size main_tree.compare main_tree.formatter with
          root := root3 }, h3) ∧
      IsTree h3 root3 t3 ∧ t3.IsBST main_tree.compare) :=
  ⟨isTree_heap5, isBST_shape5,
    tree_insert_preserves_bst heap5 main_tree shape5 6 [6, 21, -4, 0, 120] isTree_heap5 isBST_shape5⟩

/-- Claim C3 (search is exact membership): if the heap holds a tree with the BST
property under a comparator that is a consistent total order, then for every
present key `q`, `search` returns a result, and the result is `true` exactly when
some node of the tree holds a key that compares Equal to `q`; and on the tree
whose root is absent `search` returns `false`. -/
theorem search_exact_membership {K : Type} (h : Heap K) (tree : Tree K) (t : Shape K) (q : K)
    (ht : IsTree h tree.root t) (hb : t.IsBST tree.compare) (hc : ConsistentCmp tree.compare) :
    (∃ b, search h (some tree) (some q) = .ok b ∧
      (b = true ↔ ∃ k ∈ t.keys, tree.compare q k = 0)) ∧
    search h (some { tree with root := none }) (some q) = .ok false := by
  constructor
  · exact ⟨_, search_spec h tree t q ht, Shape.contains_iff hc q hb⟩
  · cases hl : h.nodes.length <;> simp [search, recursive_search, hl, ok_bind]

/-- Instance of C3: searching 0 in the five-key tree of `main`. -/
theorem search_exact_membership_witness :
    IsTree heap5 main_tree.root shape5 ∧ shape5.IsBST main_tree.compare ∧
    ConsistentCmp main_tree.compare ∧
    (∃ b, search heap5 (some main_tree) (some 0) = .ok b ∧
      (b = true ↔ ∃ k ∈ shape5.keys, main_tree.compare 0 k = 0)) ∧
    search heap5 (some { main_tree with root := none }) (some 0) = .ok false :=
  ⟨isTree_heap5, isBST_shape5, compare_ints_consistent,
    search_exact_membership heap5 main_tree shape5 0 isTree_heap5 isBST_shape5
      compare_ints_consistent⟩

/-- Claim C4 (deleting a missing key is a reported no-op) does not hold of the
code: `tree_delete` never compares the key.  On the tree that holds 6 alone,
where `search` does not find 999, `tree_delete` with key 999 returns `true`,
frees the root and leaves the tree empty. -/
theorem tree_delete_missing_key :
    insert_each [6] Heap.empty (some (create_tree 4 compare_ints int_formatter)) =
      .ok (some main_tree, heap1) ∧
    search heap1 (some main_tree) (some 999) = .ok false ∧
    tree_delete heap1 (some main_tree) (some 999) =
      .ok (true, some { main_tree with root := none }, ⟨[none], [none]⟩) :=
  ⟨rfl, rfl, rfl⟩

/-- Claim C5 (delete removes exactly one occurrence of the key) does not hold of
the code: on the tree of `main` (keys 6, 21, -4, 0, 120) `tree_delete` with key 6
takes the two-children branch, and `transplant` then reads through `u`, which
its assignment `u = u->parent->left` has set to `NULL`. -/
theorem tree_delete_two_children_faults :
    insert_each [6, 21, -4, 0, 120] Heap.empty
        (some (create_tree 4 compare_ints int_formatter)) = .ok (some main_tree, heap5) ∧
    tree_delete heap5 (some main_tree) (some 6) = .error .null_deref :=
  ⟨rfl, rfl⟩

/-- Claim C6 (delete-then-search) does not hold of the code: on the tree built by
inserting 6, 21, which holds 21 once, `tree_delete` with key 21 returns `true`;
it has worked on the root (6), `destroy_subtree` has freed both nodes, the root
is left pointing to the freed block of 21, and `search` for 21 then reads that
freed block. -/
theorem delete_then_search_faults :
    insert_each [6, 21] Heap.empty (some (create_tree 4 compare_ints int_formatter)) =
      .ok (some main_tree, heap2) ∧
    search heap2 (some main_tree) (some 21) = .ok true ∧
    tree_delete heap2 (some main_tree) (some 21) =
      .ok (true, some { main_tree with root := some 1 }, ⟨[none, none], [none, none]⟩) ∧
    search ⟨[none, none], [none, none]⟩ (some { main_tree with root := some 1 }) (some 21) =
      .error .invalid_pointer :=
  ⟨rfl, rfl, rfl, rfl⟩

/-- Claim C7 (delete keeps the BST property) does not hold of the code: in each
of the three cases the heap left by `tree_delete` holds no tree at all.  With no
left child (6, 21) and with no right child (6, 2) the root is left pointing to a
freed node; with two children (6, 2, 8) the root's `key` is left pointing to a
freed key block. -/
theorem tree_delete_breaks_tree :
    (tree_delete heap2 (some main_tree) (some 6) =
        .ok (true, some { main_tree with root := some 1 }, ⟨[none, none], [none, none]⟩) ∧
      ∀ t : Shape Int, ¬ IsTree ⟨[none, none], [none, none]⟩ (some 1) t) ∧
    (tree_delete heap2l (some main_tree) (some 6) =
        .ok (true, some { main_tree with root := some 1 }, ⟨[none, none], [none, none]⟩) ∧
      ∀ t : Shape Int, ¬ IsTree ⟨[none, none], [none, none]⟩ (some 1) t) ∧
    (tree_delete heap3 (some main_tree) (some 6) =
        .ok (true, some main_tree,
          ⟨[some ⟨1, none, none, some 2⟩, none, some ⟨2, some 0, none, none⟩],
           [some 6, none, some 8]⟩) ∧
      ∀ t : Shape Int, ¬ IsTree
        ⟨[some ⟨1, none, none, some 2⟩, none, some ⟨2, some 0, none, none⟩],
         [some 6, none, some 8]⟩ main_tree.root t) :=
  ⟨⟨rfl, not_isTree_of_freed _ 1 rfl⟩, ⟨rfl, not_isTree_of_freed _ 1 rfl⟩,
    ⟨rfl, not_isTree_of_freed_key _ 0 ⟨1, none, none, some 2⟩ rfl rfl⟩⟩

/-- Claim C8 (deleting from an empty tree fails cleanly) does not hold of the
code: on every tree whose root is absent, for every present key, `tree_delete`
reads `node->left` through the `NULL` root. -/
theorem tree_delete_empty_faults {K : Type} (h : Heap K) (data_size : Nat)
    (cmp : K → K → Int) (fmt : K → String) (k : K) :
    tree_delete h (some (create_tree data_size cmp fmt)) (some k) = .error .null_deref :=
  rfl

/-- Claim C9 (the rendering after inserts) does not hold of the code: on the tree
`main` builds by inserting 6, 21, -4, 0, 120, whose in-order key sequence is
-4, 0, 6, 21, 120, `tree_as_string` does not return `Tree: -4 0 6 21 120`: its
first `sprintf` has the output buffer as destination and as source, which is
undefined. -/
theorem tree_as_string_main_undefined :
    insert_each [6, 21, -4, 0, 120] Heap.empty
        (some (create_tree 4 compare_ints int_formatter)) = .ok (some main_tree, heap5) ∧
    IsTree heap5 main_tree.root shape5 ∧
    shape5.keys = [-4, 0, 6, 21, 120] ∧
    tree_as_string heap5 (some main_tree) = .error .overlapping_copy :=
  ⟨rfl, isTree_heap5, rfl, rfl⟩

/-- Claim C10 (rendering format for every tree) does not hold of the code for
trees whose text does not fit the buffer: on the tree that holds one key, with a
formatter whose text is 1018 bytes long, the text `Tree:`, a space and the key
is 1024 bytes, one more than the buffer of `STRING_LENGTH` bytes holds beside
the terminating NUL, and `tree_as_string` writes past its end. -/
theorem tree_as_string_overflow :
    IsTree heap1 (some 0) (.node .nil 0 6 .nil) ∧
    (append_keys long_formatter "Tree:" [(6 : Int)]).utf8ByteSize = 1024 ∧
    tree_as_string heap1 (some { main_tree with formatter := long_formatter }) =
      .error .buffer_overflow := by
  have hsize : (append_keys long_formatter "Tree:" [(6 : Int)]).utf8ByteSize = 1024 := by
    simp only [append_keys, List.foldl_cons, List.foldl_nil, utf8ByteSize_append,
      long_formatter, utf8ByteSize_replicate_x]
    rfl
  refine ⟨isTree_heap1, hsize, ?_⟩
  rw [tree_as_string_spec heap1 { main_tree with formatter := long_formatter } _ isTree_heap1]
  have hk : (Shape.node Shape.nil 0 (6 : Int) Shape.nil).keys = [6] := rfl
  simp only [hk]
  have h5 : ("Tree:" : String).utf8ByteSize = 5 := by decide
  have hnot : ¬ (("Tree:" : String).utf8ByteSize + 1 + (long_formatter 6).utf8ByteSize
      < STRING_LENGTH) := by
    rw [h5, long_formatter, utf8ByteSize_replicate_x]
    decide
  show sprintf_output "Tree:" (long_formatter 6) = _
  rw [sprintf_output, if_neg hnot]

/-- Claim C11 (rendering has no fixed size cap) does not hold of the code: the
tree built by inserting the 255 keys 100, 101, ..., 354 has a rendering of
5 + 255 * 4 = 1025 bytes, more than the buffer of `STRING_LENGTH` = 1024 bytes
that `tree_as_string` allocates, and `tree_as_string` does not return it: it
ends in its first `sprintf`, whose destination is also its source.  On the same
tree with a formatter whose text is 1018 bytes long that first `sprintf`
writes past the end of the buffer. -/
theorem tree_as_string_cap :
    ∃ root h t,
      insert_each keys255 Heap.empty (some (create_tree 4 compare_ints int_formatter)) =
        .ok (some { create_tree 4 compare_ints int_formatter with root := root }, h) ∧
      IsTree h root t ∧
      (append_keys int_formatter "Tree:" t.keys).utf8ByteSize = 1025 ∧
      STRING_LENGTH = 1024 ∧
      tree_as_string h (some { create_tree 4 compare_ints int_formatter with root := root }) =
        .error .overlapping_copy ∧
      tree_as_string h (some { create_tree 4 compare_ints long_formatter with root := root }) =
        .error .buffer_overflow := by
  obtain ⟨root, h, e, ht, -⟩ := insert_each_spec keys255 Heap.empty
    (create_tree 4 compare_ints int_formatter) .nil (isTree_empty compare_ints 4 int_formatter)
  have hperm := Shape.keys_insert_list_perm (create_tree 4 compare_ints int_formatter).compare
    keys255 (Heap.empty : Heap Int).nodes.length .nil
  rw [show (Shape.nil : Shape Int).keys = [] from rfl, List.nil_append] at hperm
  generalize Shape.insert_list (create_tree 4 compare_ints int_formatter).compare
    (Heap.empty : Heap Int).nodes.length keys255 .nil = t at ht hperm
  have hsum := sum_map_const (fun k => 1 + (int_formatter k).utf8ByteSize) 4 _
    (fun k hk => keys255_size k (hperm.mem_iff.1 hk))
  have hlen := hperm.length_eq
  rw [show keys255.length = 255 by rw [keys255, List.length_map, List.length_range]] at hlen
  rw [hlen] at hsum
  have h5 : ("Tree:" : String).utf8ByteSize = 5 := by decide
  have hcap : STRING_LENGTH = 1024 := rfl
  refine ⟨root, h, t, e, ht, ?_, rfl, ?_, ?_⟩
  · rw [append_keys_size, hsum]
    rfl
  · cases hk : t.keys with
    | nil => rw [hk] at hlen; simp at hlen
    | cons k0 rest =>
      have hk0 := keys255_size k0 (hperm.mem_iff.1 (by rw [hk]; exact List.mem_cons_self _ _))
      have hfit : ("Tree:" : String).utf8ByteSize + 1 + (int_formatter k0).utf8ByteSize
          < STRING_LENGTH := by
        rw [h5, hcap]
        omega
      rw [tree_as_string_first h _ t ht k0 rest hk]
      show sprintf_output "Tree:" (int_formatter k0) = _
      rw [sprintf_output, if_pos hfit]
  · cases hk : t.keys with
    | nil => rw [hk] at hlen; simp at hlen
    | cons k0 rest =>
      have hnot : ¬ (("Tree:" : String).utf8ByteSize + 1 + (long_formatter k0).utf8ByteSize
          < STRING_LENGTH) := by
        rw [h5, hcap, long_formatter, utf8ByteSize_replicate_x]
        decide
      rw [tree_as_string_first h { create_tree 4 compare_ints long_formatter with root := root }
        t ht k0 rest hk]
      show sprintf_output "Tree:" (long_formatter k0) = _
      rw [sprintf_output, if_neg hnot]

/-- Claim C12 (depth definition): on every heap that holds a tree, `tree_depth`
returns the depth of the tree, where the empty tree has depth 0 and a tree
with a root has depth 1 + max of the depths of the root's left and right
subtrees; `tree_depth` of a tree whose root is absent is 0.  `tree_depth` reads
the heap and returns a number only, it changes nothing.  The tree of `main`
(6, 21, -4, 0, 120) has depth 3. -/
theorem tree_depth_definition {K : Type} (h : Heap K) (tree : Tree K) (t : Shape K)
    (ht : IsTree h tree.root t) :
    tree_depth h (some { tree with root := none }) = .ok 0 ∧
    tree_depth h (some tree) = .ok t.depth ∧
    (∀ a n, tree.root = some a → h.nodes[a]? = some (some n) →
      ∃ dl dr, tree_depth h (some { tree with root := n.left }) = .ok dl ∧
        tree_depth h (some { tree with root := n.right }) = .ok dr ∧
        tree_depth h (some tree) = .ok (1 + max dl dr)) ∧
    tree_depth heap5 (some main_tree) = .ok 3 := by
  refine ⟨?_, tree_depth_spec h tree t ht, ?_, rfl⟩
  · cases hl : h.nodes.length <;> simp [tree_depth, max_depth, hl]
  · intro a n hroot hn
    have hrep := ht.1
    rw [hroot] at hrep
    cases t with
    | nil => simp [Repr] at hrep
    | node l b k r =>
      obtain ⟨rfl, n2, hn2, -, -, hl, hr⟩ := hrep
      rw [hn] at hn2
      simp only [Option.some.injEq] at hn2
      subst hn2
      have hd := IsTree.depth_le ht
      simp only [Shape.depth] at hd
      refine ⟨l.depth, r.depth, ?_, ?_, ?_⟩
      · exact max_depth_spec h l _ _ _ hl (by omega)
      · exact max_depth_spec h r _ _ _ hr (by omega)
      · rw [tree_depth_spec h tree _ ht, Shape.depth, Nat.add_comm]

/-- Instance of C12: the tree of `main`. -/
theorem tree_depth_definition_witness :
    IsTree heap5 main_tree.root shape5 ∧
    tree_depth heap5 (some { main_tree with root := none }) = .ok 0 ∧
    tree_depth heap5 (some main_tree) = .ok shape5.depth ∧
    (∀ a n, main_tree.root = some a → heap5.nodes[a]? = some (some n) →
      ∃ dl dr, tree_depth heap5 (some { main_tree with root := n.left }) = .ok dl ∧
        tree_depth heap5 (some { main_tree with root := n.right }) = .ok dr ∧
        tree_depth heap5 (some main_tree) = .ok (1 + max dl dr)) ∧
    tree_depth heap5 (some main_tree) = .ok 3 :=
  ⟨isTree_heap5, tree_depth_definition heap5 main_tree shape5 isTree_heap5⟩

/-- Claim C13 (degenerate chain): for every list of keys that is strictly
increasing (each key compares Less than the next) under a comparator that is a
consistent total order, inserting the keys in that order into the empty tree
succeeds and `tree_depth` of the tree is the number of keys. -/
theorem insert_increasing_depth {K : Type} (data_size : Nat) (cmp : K → K → Int)
    (fmt : K → String) (ks : List K) (hc : ConsistentCmp cmp)
    (hs : List.Chain' (fun a b => cmp a b < 0) ks) :
    ∃ root h,
      insert_each ks Heap.empty (some (create_tree data_size cmp fmt)) =
        .ok (some { create_tree data_size cmp fmt with root := root }, h) ∧
      tree_depth h (some { create_tree data_size cmp fmt with root := root }) =
        .ok ks.length := by
  obtain ⟨root, h, e, ht, -⟩ := insert_each_spec ks Heap.empty
    (create_tree data_size cmp fmt) .nil (isTree_empty cmp data_size fmt)
  refine ⟨root, h, e, ?_⟩
  rw [tree_depth_spec h { create_tree data_size cmp fmt with root := root } _ ht]
  have hanti : ∀ a b, cmp a b < 0 → ¬ cmp b a < 0 := fun a b hab => by
    have := hc.antisymm a b
    omega
  have hd := Shape.depth_insert_list_chain cmp hanti ks (Heap.empty : Heap K).nodes.length .nil
    (by simp [Shape.IsRightChain]) (by simp [Shape.keys]) (pairwise_of_chain hc hs)
  show Except.ok (Shape.insert_list cmp (Heap.empty : Heap K).nodes.length ks .nil).depth = _
  rw [hd]
  simp [Shape.depth]

/-- Instance of C13: the keys 1, 2, 3, 4; the model run on them gives depth 4. -/
theorem insert_increasing_depth_witness :
    ConsistentCmp compare_ints ∧
    List.Chain' (fun a b => compare_ints a b < 0) [1, 2, 3, 4] ∧
    (∃ root h,
      insert_each [1, 2, 3, 4] Heap.empty (some (create_tree 4 compare_ints int_formatter)) =
        .ok (some { create_tree 4 compare_ints int_formatter with root := root }, h) ∧
      tree_depth h (some { create_tree 4 compare_ints int_formatter with root := root }) =
        .ok [(1 : Int), 2, 3, 4].length) ∧
    (∃ tree h,
      insert_each [1, 2, 3, 4] Heap.empty (some (create_tree 4 compare_ints int_formatter)) =
        .ok (tree, h) ∧
      tree_depth h tree = .ok 4) :=
  ⟨compare_ints_consistent, by simp [compare_ints],
    insert_increasing_depth 4 compare_ints int_formatter [1, 2, 3, 4] compare_ints_consistent
      (by simp [compare_ints]),
    ⟨_, _, rfl, rfl⟩⟩

/-- Claim C14 (balanced insertion order): for every list of distinct keys sorted
(each key compares Less than the next) under a comparator that is a consistent
total order, inserting the keys into the empty tree in median-first
recursive-split order (the median, then the keys below it in that order, then
the keys above it) succeeds and `tree_depth` of the tree is ceil(log2(n + 1)),
n the number of keys. -/
theorem insert_median_first_depth {K : Type} (data_size : Nat) (cmp : K → K → Int)
    (fmt : K → String) (l : List K) (hc : ConsistentCmp cmp)
    (hs : List.Chain' (fun a b => cmp a b < 0) l) :
    ∃ root h,
      insert_each (median_first l) Heap.empty (some (create_tree data_size cmp fmt)) =
        .ok (some { create_tree data_size cmp fmt with root := root }, h) ∧
      tree_depth h (some { create_tree data_size cmp fmt with root := root }) =
        .ok (Nat.clog 2 (l.length + 1)) := by
  obtain ⟨root, h, e, ht, -⟩ := insert_each_spec (median_first l) Heap.empty
    (create_tree data_size cmp fmt) .nil (isTree_empty cmp data_size fmt)
  refine ⟨root, h, e, ?_⟩
  rw [tree_depth_spec h { create_tree data_size cmp fmt with root := root } _ ht]
  have hanti : ∀ a b, cmp a b < 0 → ¬ cmp b a < 0 := fun a b hab => by
    have := hc.antisymm a b
    omega
  exact congrArg Except.ok
    (Shape.depth_median_first cmp hanti l.length l _ (le_refl _) (pairwise_of_chain hc hs))

/-- Instance of C14: the keys 1 to 7, inserted in the order 4, 2, 1, 3, 6, 5, 7;
the model run on them gives depth 3 = ceil(log2 8). -/
theorem insert_median_first_depth_witness :
    ConsistentCmp compare_ints ∧
    List.Chain' (fun a b => compare_ints a b < 0) [1, 2, 3, 4, 5, 6, 7] ∧
    median_first [(1 : Int), 2, 3, 4, 5, 6, 7] = [4, 2, 1, 3, 6, 5, 7] ∧
    (∃ root h,
      insert_each (median_first [1, 2, 3, 4, 5, 6, 7]) Heap.empty
          (some (create_tree 4 compare_ints int_formatter)) =
        .ok (some { create_tree 4 compare_ints int_formatter with root := root }, h) ∧
      tree_depth h (some { create_tree 4 compare_ints int_formatter with root := root }) =
        .ok (Nat.clog 2 ([(1 : Int), 2, 3, 4, 5, 6, 7].length + 1))) ∧
    Nat.clog 2 (7 + 1) = 3 ∧
    (∃ tree h,
      insert_each [4, 2, 1, 3, 6, 5, 7] Heap.empty
          (some (create_tree 4 compare_ints int_formatter)) = .ok (tree, h) ∧
      tree_depth h tree = .ok 3) :=
  ⟨compare_ints_consistent, by simp [compare_ints], by decide,
    insert_median_first_depth 4 compare_ints int_formatter [1, 2, 3, 4, 5, 6, 7]
      compare_ints_consistent (by simp [compare_ints]),
    by simp [Nat.clog], ⟨_, _, rfl, rfl⟩⟩

/-- Claim C15 (when `tree_insert` returns false): with the tree absent or the key
absent `tree_insert` returns `false` and leaves the heap and the tree record as
they were; on every heap that holds a tree, with tree and key present, it
returns `true` (keys equal to stored ones included); and with tree and key
present it never returns `false`. -/
theorem tree_insert_false_iff_absent {K : Type} (h : Heap K) (tree : Tree K) (t : Shape K)
    (k : K) (ht : IsTree h tree.root t) :
    (∀ data : Option K, tree_insert h none data = .ok (false, none, h)) ∧
    (∀ tr : Option (Tree K), tree_insert h tr none = .ok (false, tr, h)) ∧
    (∃ tree2 h2, tree_insert h (some tree) (some k) = .ok (true, some tree2, h2)) ∧
    (∀ (h0 : Heap K) (tr : Tree K) (d : K) (r : Bool × Option (Tree K) × Heap K),
      tree_insert h0 (some tr) (some d) = .ok r → r.1 = true) := by
  refine ⟨fun data => rfl, fun tr => ?_, ?_, tree_insert_true_of_ok⟩
  · cases tr <;> rfl
  · obtain ⟨root2, h2, e, -, -⟩ := tree_insert_spec h tree t k ht
    exact ⟨_, h2, e⟩

/-- Instance of C15: the tree of `main` and the key 6, which it holds. -/
theorem tree_insert_false_iff_absent_witness :
    IsTree heap5 main_tree.root shape5 ∧
    (∀ data : Option Int, tree_insert heap5 none data = .ok (false, none, heap5)) ∧
    (∀ tr : Option (Tree Int), tree_insert heap5 tr none = .ok (false, tr, heap5)) ∧
    (∃ tree2 h2, tree_insert heap5 (some main_tree) (some 6) = .ok (true, some tree2, h2)) ∧
    (∀ (h0 : Heap Int) (tr : Tree Int) (d : Int) (r : Bool × Option (Tree Int) × Heap Int),
      tree_insert h0 (some tr) (some d) = .ok r → r.1 = true) :=
  ⟨isTree_heap5, tree_insert_false_iff_absent heap5 main_tree shape5 6 isTree_heap5⟩

/-- Claim C17 (`transplant` splices `v` into the slot of `u`) does not hold of the
code when `u` is a right child: the test `u = u->parent->left` is an
assignment.  On the tree built by inserting 6, 2, 8, 1, 4 the call
`transplant(tree, u, NULL)` with `u` the node of 4 (block 4, the right child of
the node of 2, block 1) sets the left link of block 1 to `NULL`, leaves its
right link pointing to block 4, and frees block 3, the node of 1. -/
theorem transplant_right_child :
    insert_each [6, 2, 8, 1, 4] Heap.empty (some (create_tree 4 compare_ints int_formatter)) =
      .ok (some main_tree, heap5b) ∧
    transplant heap5b (some main_tree) (some 4) none =
      .ok (some main_tree,
        ⟨[some ⟨0, none, some 1, some 2⟩, some ⟨1, some 0, none, some 4⟩,
          some ⟨2, some 0, none, none⟩, none, some ⟨4, some 1, none, none⟩],
         [some 6, some 2, some 8, none, some 4]⟩) :=
  ⟨rfl, rfl⟩

/-- Claim C18 (`transplant` removes only the node `u`) does not hold of the code:
its last statement is `destroy_subtree(u)`, which frees every node still linked
below `u`.  On the tree built by inserting 6, 2 the call
`transplant(tree, root, root->left)` makes block 1 (the node of 2) the root and
then frees block 0 and block 1 with their keys. -/
theorem transplant_frees_replacement :
    insert_each [6, 2] Heap.empty (some (create_tree 4 compare_ints int_formatter)) =
      .ok (some main_tree, heap2l) ∧
    transplant heap2l (some main_tree) (some 0) (some 1) =
      .ok (some { main_tree with root := some 1 }, ⟨[none, none], [none, none]⟩) :=
  ⟨rfl, rfl⟩

/-- Claim C19 (`tree_maximum` returns the rightmost node): for every non-empty
subtree held by the heap, `tree_maximum` returns a node of that subtree which
has no right child, and when the subtree has the BST property under a
consistent comparator no key of the subtree compares Greater than the key of
that node; for an absent node it returns absent.  So the node `tree_delete`
takes from the left subtree of a root with two children has no right child. -/
theorem tree_maximum_rightmost {K : Type} (h : Heap K) (cmp : K → K → Int) (par : Option Nat)
    (a : Nat) (t : Shape K) (hr : Repr h par (some a) t) (hnd : t.addrs.Nodup) :
    (∃ m n km, tree_maximum h (some a) = .ok (some m) ∧ m ∈ t.addrs ∧
      h.nodes[m]? = some (some n) ∧ n.right = none ∧ h.keys[n.key]? = some (some km) ∧
      (ConsistentCmp cmp → t.IsBST cmp → ∀ x ∈ t.keys, ¬ 0 < cmp x km)) ∧
    tree_maximum h none = .ok none ∧
    (∀ (tree : Tree K) (l r : Shape K) (a0 : Nat) (k0 : K) (n0 : TreeNode),
      IsTree h tree.root (.node l a0 k0 r) → h.nodes[a0]? = some (some n0) → l ≠ .nil →
      ∃ prev pn, tree_maximum h n0.left = .ok (some prev) ∧ prev ∈ l.addrs ∧
        h.nodes[prev]? = some (some pn) ∧ pn.right = none) := by
  have key : ∀ (par : Option Nat) (a : Nat) (t : Shape K), Repr h par (some a) t →
      t.addrs.Nodup → ∃ m n km, tree_maximum h (some a) = .ok (some m) ∧ m ∈ t.addrs ∧
        h.nodes[m]? = some (some n) ∧ n.right = none ∧ h.keys[n.key]? = some (some km) ∧
        t.keys.getLast? = some km := by
    intro par a t hr hnd
    have hd : t.depth ≤ h.nodes.length + 1 :=
      le_trans t.depth_le_length (le_trans (Repr.length_le hr hnd) (Nat.le_succ _))
    obtain ⟨m, n, km, hw, hm, hn, hnr, hk, hl⟩ := maximum_walk_spec h t par a _ hr hd
    exact ⟨m, n, km, by simp [tree_maximum, hw, ok_bind], hm, hn, hnr, hk, hl⟩
  refine ⟨?_, rfl, ?_⟩
  · obtain ⟨m, n, km, h1, h2, h3, h4, h5, h6⟩ := key par a t hr hnd
    refine ⟨m, n, km, h1, h2, h3, h4, h5, fun hc hb x hx => ?_⟩
    have := le_last_of_sorted hc t.keys km (isBST_sorted hc hb) h6 x hx
    omega
  · intro tree l r a0 k0 n0 ht hn0 hl
    obtain ⟨hrep, hnd0⟩ := ht
    cases hroot : tree.root with
    | none => rw [hroot] at hrep; simp [Repr] at hrep
    | some b =>
      rw [hroot] at hrep
      obtain ⟨rfl, n2, hn2, -, -, hlr, -⟩ := hrep
      rw [hn0] at hn2
      simp only [Option.some.injEq] at hn2
      subst hn2
      cases hleft : n0.left with
      | none => rw [hleft] at hlr; exact absurd (Repr.none_iff.1 hlr) hl
      | some c =>
        rw [hleft] at hlr
        have hndl : l.addrs.Nodup := (List.nodup_append.1 hnd0).1
        obtain ⟨m, n, km, h1, h2, h3, h4, -, -⟩ := key _ c l hlr hndl
        exact ⟨m, n, h1, h2, h3, h4⟩

/-- Instance of C19: the tree of `main`; the rightmost node is block 4, the node
of 120. -/
theorem tree_maximum_rightmost_witness :
    Repr heap5 none (some 0) shape5 ∧ shape5.addrs.Nodup ∧
    (∃ m n km, tree_maximum heap5 (some 0) = .ok (some m) ∧ m ∈ shape5.addrs ∧
      heap5.nodes[m]? = some (some n) ∧ n.right = none ∧
      heap5.keys[n.key]? = some (some km) ∧
      (ConsistentCmp compare_ints → shape5.IsBST compare_ints →
        ∀ x ∈ shape5.keys, ¬ 0 < compare_ints x km)) ∧
    tree_maximum heap5 none = .ok none ∧
    (∀ (tree : Tree Int) (l r : Shape Int) (a0 : Nat) (k0 : Int) (n0 : TreeNode),
      IsTree heap5 tree.root (.node l a0 k0 r) → heap5.nodes[a0]? = some (some n0) →
      l ≠ .nil →
      ∃ prev pn, tree_maximum heap5 n0.left = .ok (some prev) ∧ prev ∈ l.addrs ∧
        heap5.nodes[prev]? = some (some pn) ∧ pn.right = none) :=
  ⟨isTree_heap5.1, isTree_heap5.2,
    tree_maximum_rightmost heap5 compare_ints none 0 shape5 isTree_heap5.1 isTree_heap5.2⟩

/-- Claim C20 (`tree_insert` only adds one leaf): on every heap that holds a
tree, `tree_insert` of a present key `k` returns `true` and the heap then holds
the same tree with one empty place (the empty root or an empty child slot)
filled by a leaf whose block is new and holds `k`; every node there was keeps
its block, key, place and other links; one node block and one key block were
allocated and no key block there was has changed; the number of nodes grows by
exactly 1; and `tree_depth` grows by at most 1 and does not shrink. -/
theorem tree_insert_adds_leaf {K : Type} (h : Heap K) (tree : Tree K) (t : Shape K) (k : K)
    (ht : IsTree h tree.root t) :
    ∃ root2 h2 t2 d1 d2,
      tree_insert h (some tree) (some k) = .ok (true, some { tree with root := root2 }, h2) ∧
      IsTree h2 root2 t2 ∧ LeafAdded h.nodes.length k t t2 ∧ h.nodes.length ∉ t.addrs ∧
      h2.nodes.length = h.nodes.length + 1 ∧ h2.keys = h.keys ++ [some k] ∧
      (∀ b, b ∉ t.addrs → b < h.nodes.length → h2.nodes[b]? = h.nodes[b]?) ∧
      t2.addrs.length = t.addrs.length + 1 ∧
      tree_depth h (some tree) = .ok d1 ∧
      tree_depth h2 (some { tree with root := root2 }) = .ok d2 ∧
      d1 ≤ d2 ∧ d2 ≤ d1 + 1 := by
  obtain ⟨root2, h2, e, ht2, hlen, hkeys, hfr⟩ := tree_insert_frame h tree t k ht
  have hla := Shape.insert_leafAdded tree.compare h.nodes.length k t
  refine ⟨root2, h2, _, t.depth, _, e, ht2, hla,
    fun hm => lt_irrefl _ (Repr.addr_lt ht.1 _ hm), hlen, hkeys, hfr, hla.addrs_length,
    tree_depth_spec h tree t ht,
    tree_depth_spec h2 { tree with root := root2 } _ ht2, hla.depth_bounds.1,
    hla.depth_bounds.2⟩

/-- Instance of C20: inserting 7 into the tree of `main`. -/
theorem tree_insert_adds_leaf_witness :
    IsTree heap5 main_tree.root shape5 ∧
    ∃ root2 h2 t2 d1 d2,
      tree_insert heap5 (some main_tree) (some 7) =
        .ok (true, some { main_tree with root := root2 }, h2) ∧
      IsTree h2 root2 t2 ∧ LeafAdded heap5.nodes.length 7 shape5 t2 ∧
      heap5.nodes.length ∉ shape5.addrs ∧
      h2.nodes.length = heap5.nodes.length + 1 ∧ h2.keys = heap5.keys ++ [some 7] ∧
      (∀ b, b ∉ shape5.addrs → b < heap5.nodes.length → h2.nodes[b]? = heap5.nodes[b]?) ∧
      t2.addrs.length = shape5.addrs.length + 1 ∧
      tree_depth heap5 (some main_tree) = .ok d1 ∧
      tree_depth h2 (some { main_tree with root := root2 }) = .ok d2 ∧
      d1 ≤ d2 ∧ d2 ≤ d1 + 1 :=
  ⟨isTree_heap5, tree_insert_adds_leaf heap5 main_tree shape5 7 isTree_heap5⟩

end BST
